import Mathlib

/-!
Verification of the jsonschema-transformer core: a shallow embedding of the
schema model (`src/schema.rs`), the path searcher (`src/searcher.rs`) and the
JavaScript code generator (`src/codegen.rs`), together with proofs about the
IR the searcher emits and the code generator's behaviour on it.
-/

namespace JT

/-- The four scalar JSON leaf kinds (`Ground` in `src/schema.rs`). -/
inductive Ground where
  | Num
  | Bool
  | String
  | Null
deriving DecidableEq, Repr

/-- Schemas (`Schema` in `src/schema.rs`).  `Obj` carries the entries of the
`BTreeMap<Arc<String>, Arc<Schema>>` in its iteration order, i.e. as a list of
key/value pairs in ascending key order with no duplicate keys. -/
inductive Schema where
  | Ground : Ground → Schema
  | Arr : Schema → Schema
  | Obj : List (String × Schema) → Schema
  | True : Schema
  | False : Schema

/-- The canonical IR instruction set (`IR` in the enum used by
`src/searcher.rs` and `src/codegen.rs`). -/
inductive IR where
  | G2G : Ground → Ground → IR
  | Copy : IR
  | PushArr : IR
  | PopArr : IR
  | PushObj : IR
  | PopObj : IR
  | PushKey : String → IR
  | PopKey : IR
  | Abs : String → IR
  | Extr : String → IR
  | Inv : IR
deriving DecidableEq, Repr

/-- The searcher's error type (`SearchErr` in `src/searcher.rs`). -/
inductive SearchErr where
  | NoPath
deriving DecidableEq, Repr

/-- `BTreeMap::get` on the ordered entry list of an `Obj` schema. -/
def lookupA : List (String × Schema) → String → Option Schema
  | [], _ => none
  | (k', v) :: rest, k => if k = k' then some v else lookupA rest k

/-- The scan in the `Obj → Ground` arm of `find_path`: the key of the first
entry whose value is `Ground g` (the loop at `src/searcher.rs:111-126`). -/
def extrKey : List (String × Schema) → Ground → Option String
  | [], _ => none
  | (k, v) :: rest, g =>
    match v with
    | .Ground g2 => if g = g2 then some k else extrKey rest g
    | _ => extrKey rest g

mutual

/-- `SchemaSearcher::find_path` (`src/searcher.rs:73-156`) on a fresh searcher.
The memo table is consulted but never written by the source (see `findPathM`
below, which threads it explicitly and which this function agrees with), so
the recursion is pure.  Match arms appear in source order; in particular the
`True` arms precede the `False` arms. -/
def findPath : Schema → Schema → Except SearchErr (List IR)
  | .Ground g1, .Ground g2 =>
    if g1 = g2 then .ok [IR.Copy] else .ok [IR.G2G g1 g2]
  | .Ground _, .Arr _ => .error .NoPath
  | .Ground g, .Obj o =>
    match o with
    | [(k, v)] =>
      match findPath (.Ground g) v with
      | .error e => .error e
      | .ok p => .ok (p ++ [IR.Abs k])
    | _ => .error .NoPath
  | .Arr _, .Ground _ => .error .NoPath
  | .Arr s1, .Arr s2 =>
    match findPath s1 s2 with
    | .error e => .error e
    | .ok inner => .ok ([IR.PushArr] ++ inner ++ [IR.PopArr])
  | .Arr _, .Obj _ => .error .NoPath
  | .Obj o, .Ground g1 =>
    match extrKey o g1 with
    | some k => .ok [IR.Extr k]
    | none => .error .NoPath
  | .Obj _, .Arr _ => .error .NoPath
  | .Obj o1, .Obj o2 =>
    if o2.all (fun p => (lookupA o1 p.1).isSome) then
      match findPathEntries o1 o2 with
      | .error e => .error e
      | .ok body => .ok ([IR.PushObj] ++ body ++ [IR.PopObj])
    else .error .NoPath
  | .True, _ => .ok []
  | _, .True => .ok []
  | .False, _ => .error .NoPath
  | _, .False => .error .NoPath
termination_by l r => sizeOf l + sizeOf r
decreasing_by
  all_goals simp_wf
  all_goals omega

/-- The per-key loop of the `Obj → Obj` arm of `find_path`
(`src/searcher.rs:139-146`): iterate the source map in ascending key order;
keys absent from the target contribute nothing, shared keys contribute
`PushKey k`, the recursive path, `PopKey`. -/
def findPathEntries : List (String × Schema) → List (String × Schema) → Except SearchErr (List IR)
  | [], _ => .ok []
  | (k1, v1) :: rest, o2 =>
    match h2 : lookupA o2 k1 with
    | none => findPathEntries rest o2
    | some v2 =>
      match findPath v1 v2 with
      | .error e => .error e
      | .ok conv =>
        match findPathEntries rest o2 with
        | .error e => .error e
        | .ok tail => .ok ([IR.PushKey k1] ++ conv ++ [IR.PopKey] ++ tail)
termination_by o1 o2 => sizeOf o1 + sizeOf o2
decreasing_by
  all_goals simp_wf
  all_goals
    (have hsz : ∀ (o : List (String × Schema)) (k : String) (v : Schema),
        lookupA o k = some v → sizeOf v < sizeOf o := by
      intro o k v h
      induction o with
      | nil => simp [lookupA] at h
      | cons hd tl ih =>
        obtain ⟨k1, v1⟩ := hd
        simp only [lookupA] at h
        split at h
        · cases h
          simp
          omega
        · have := ih h
          simp
          omega
     have := hsz _ _ _ h2
     omega)

end

/-! ## Code generator (`src/codegen.rs`) -/

/-- Stack levels of the code generator (`Level` in `src/codegen.rs`). -/
inductive Level where
  | Var : String → Level
  | Key : String → Level
  | Arr : String → String → Level
deriving DecidableEq, Repr

/-- The `Display`/`From<Level> for String` conversion in `src/codegen.rs`:
a `Var` or `Arr` displays as its (array) variable name, a `Key` as the
property name. -/
def levelString : Level → String
  | .Var n => n
  | .Key k => k
  | .Arr n _ => n

/-- The code generator state (`struct JSCodegen`).  The head of `varstack`
is the top of the stack (the end of the Rust `Vec`). -/
structure JSCodegen where
  varstack : List Level
  arg : String
  retvar : String
  uniq : Nat
deriving DecidableEq, Repr

/-- `JSCodegen::new` (`src/codegen.rs:66-73`). -/
def JSCodegen.new (arg retvar : String) : JSCodegen :=
  { varstack := [], arg := arg, retvar := retvar, uniq := 0 }

/-- `JSCodegen::output_path` (`src/codegen.rs:83-98`).  `none` models the
panic when the top of the stack is a `Key` but the level beneath it is not a
`Var`; with at most one level on the stack the slot beneath defaults to
`retvar`, which is a `Var`. -/
def outputPath (cg : JSCodegen) : Option String :=
  match cg.varstack with
  | [] => some cg.retvar
  | Level.Key k :: rest =>
    match rest with
    | [] => some (cg.retvar ++ "." ++ k)
    | Level.Var v :: _ => some (v ++ "." ++ k)
    | _ => none
  | Level.Arr arr idx :: _ => some (arr ++ "[" ++ idx ++ "]")
  | Level.Var v :: _ => some v

/-- The per-level fragment appended by `JSCodegen::input_path`
(`src/codegen.rs:100-121`). -/
def levelInputFrag : Level → String
  | .Var _ => ""
  | .Key k => "." ++ k
  | .Arr _ i => "[" ++ i ++ "]"

/-- `JSCodegen::input_path`: the argument name followed by the fragments of
the stack levels from the bottom of the stack to the top. -/
def inputPath (cg : JSCodegen) : String :=
  cg.arg ++ String.join (cg.varstack.reverse.map levelInputFrag)

/-- `JSCodegen::generate_ground_to_ground` (`src/codegen.rs:136-167`).
The outer `none` models the `output_path` panic; `some none` is the
uncovered-pair case in which the instruction contributes no fragment (and
`output_path` is never evaluated).  Match arms appear in source order. -/
def generateGroundToGround (cg : JSCodegen) (g1 g2 : Ground) : Option (Option String) :=
  match g1, g2 with
  | .Num, .Bool =>
    (outputPath cg).map fun o => some (o ++ " = !(" ++ inputPath cg ++ " === 0);")
  | .Bool, .Num =>
    (outputPath cg).map fun o => some (o ++ " = " ++ inputPath cg ++ " ? 0 : 1;")
  | .String, .Num =>
    (outputPath cg).map fun o => some (o ++ " = parseInt(" ++ inputPath cg ++ ");")
  | .String, .Bool =>
    (outputPath cg).map fun o => some (o ++ " = !!(" ++ inputPath cg ++ ");")
  | .Null, .Num =>
    (outputPath cg).map fun o => some (o ++ " = 0;")
  | .Null, .Bool =>
    (outputPath cg).map fun o => some (o ++ " = false;")
  | .Null, .String =>
    (outputPath cg).map fun o => some (o ++ " = \"null\"")
  | _, .String =>
    (outputPath cg).map fun o => some (o ++ " = " ++ inputPath cg ++ ".toString();")
  | _, .Null =>
    (outputPath cg).map fun o => some (o ++ " = null")
  | _, _ => some none

/-- One iteration of the instruction loop in `JSCodegen::generate`
(`src/codegen.rs:179-243`): the updated state and the fragments pushed, or
`none` for a panic (`PopArr`/`PopKey` stack mismatches, `output_path`
invariant violations, and the `todo!()` arms for `Inv` and `Extr`). -/
def genStep (cg : JSCodegen) (op : IR) : Option (JSCodegen × List String) :=
  match op with
  | .G2G g1 g2 =>
    match generateGroundToGround cg g1 g2 with
    | none => none
    | some none => some (cg, [])
    | some (some frag) => some (cg, [frag])
  | .PushArr =>
    let arrname := "arr" ++ toString cg.uniq
    let idx := "idx" ++ toString (cg.uniq + 1)
    some ({ cg with uniq := cg.uniq + 2, varstack := Level.Arr arrname idx :: cg.varstack },
      ["let " ++ arrname ++ " = [];",
       "for (let " ++ idx ++ " = 0; " ++ idx ++ " < " ++ inputPath cg ++ ".length; " ++ idx ++ "++) \x7b"])
  | .PopArr =>
    match cg.varstack with
    | Level.Arr arr _ :: rest =>
      let cg' := { cg with varstack := rest }
      (outputPath cg').map fun o => (cg', ["\x7d", o ++ " = " ++ arr ++ ";"])
    | _ => none
  | .PushKey k => some ({ cg with varstack := Level.Key k :: cg.varstack }, [])
  | .PopKey =>
    match cg.varstack with
    | [] => some (cg, [])
    | Level.Key _ :: rest => some ({ cg with varstack := rest }, [])
    | _ => none
  | .PushObj =>
    let var := "obj" ++ toString cg.uniq
    some ({ cg with uniq := cg.uniq + 1, varstack := Level.Var var :: cg.varstack },
      ["let " ++ var ++ " = \x7b\x7d;"])
  | .PopObj =>
    match cg.varstack with
    | [] => (outputPath cg).map fun o => (cg, [o ++ " = " ++ cg.retvar ++ ";"])
    | top :: rest =>
      let cg' := { cg with varstack := rest }
      (outputPath cg').map fun o => (cg', [o ++ " = " ++ levelString top ++ ";"])
  | .Abs k =>
    (outputPath cg).map fun o =>
      (cg, [o ++ " = \x7b\"" ++ k ++ "\": " ++ inputPath cg ++ " \x7d;"])
  | .Copy =>
    (outputPath cg).map fun o =>
      (cg, [o ++ " = structuredClone(" ++ inputPath cg ++ ");"])
  | .Inv => none
  | .Extr _ => none

/-- The instruction loop of `JSCodegen::generate`, accumulating the emitted
fragments in order. -/
def genLoop (cg : JSCodegen) : List IR → Option (JSCodegen × List String)
  | [] => some (cg, [])
  | op :: rest =>
    match genStep cg op with
    | none => none
    | some (cg', fs) =>
      match genLoop cg' rest with
      | none => none
      | some (cg'', fs') => some (cg'', fs ++ fs')

/-- Rust `str::ends_with(char)`: does the last character of `s` equal `c`? -/
def endsWithChar (s : String) (c : Char) : Bool :=
  match s.data.getLast? with
  | some c' => c' = c
  | none => false

/-- The indentation post-pass of `JSCodegen::generate`
(`src/codegen.rs:246-260`): a fragment ending in `}` decrements the
indentation level before being emitted, a fragment ending in `{` increments
it afterwards.  `none` models the underflow panic of `indent -= 1` at
indentation level zero. -/
def indentFrags : List String → Nat → Option (List String)
  | [], _ => some []
  | f :: rest, ind =>
    match (if endsWithChar f '\x7d' then
            match ind with
            | 0 => none
            | m + 1 => some m
           else some ind) with
    | none => none
    | some ind1 =>
      match indentFrags rest (if endsWithChar f '\x7b' then ind1 + 1 else ind1) with
      | none => none
      | some lines => some ((String.mk (List.replicate (4 * ind1) ' ') ++ f) :: lines)

/-- `JSCodegen::generate` (`src/codegen.rs:173-265`): run the instruction
loop, apply the indentation post-pass starting at level 1, and wrap the body
in the function literal.  `none` models a process abort (panic, `todo!()`, or
indentation underflow). -/
def generate (cg : JSCodegen) (ir : List IR) : Option String :=
  match genLoop cg ir with
  | none => none
  | some (cg', frags) =>
    match indentFrags frags 1 with
    | none => none
    | some lines =>
      some ("function(" ++ cg'.arg ++ ") \x7b\n" ++ String.intercalate "\n" lines
        ++ "\n    return " ++ cg'.retvar ++ ";\n\x7d")

/-! ## Well-formedness of IR programs (§3.4) -/

/-- The three kinds of `Push*`/`Pop*` pairs. -/
inductive Frame where
  | arr
  | obj
  | key
deriving DecidableEq, Repr

/-- Checker for balanced, properly nested IR: process the program against a
stack of open frames; `none` marks a `Pop*` without a matching open `Push*`
of the same kind on top.  A program `p` is well-formed when
`runWF p [] = some []`. -/
def runWF : List IR → List Frame → Option (List Frame)
  | [], s => some s
  | op :: rest, s =>
    match op, s with
    | .PushArr, s => runWF rest (.arr :: s)
    | .PushObj, s => runWF rest (.obj :: s)
    | .PushKey _, s => runWF rest (.key :: s)
    | .PopArr, .arr :: s2 => runWF rest s2
    | .PopObj, .obj :: s2 => runWF rest s2
    | .PopKey, .key :: s2 => runWF rest s2
    | .PopArr, _ => none
    | .PopObj, _ => none
    | .PopKey, _ => none
    | _, s => runWF rest s

/-! ## ExtNat (`src/schema.rs:13-54`, duplicated in `src/searcher.rs:8-49`) -/

/-- Extended naturals.  The `u64` payload is modelled as `Nat`; no claim here
involves arithmetic overflow. -/
inductive ExtNat where
  | Nat : Nat → ExtNat
  | Inf : ExtNat
deriving DecidableEq, Repr

/-- The hand-written `impl PartialOrd for ExtNat` (`src/schema.rs:19-29`,
identically `src/searcher.rs:14-24`).  Note the `(Inf, Inf) => None` arm. -/
def ExtNat.partialCmp : ExtNat → ExtNat → Option Ordering
  | .Inf, .Inf => none
  | .Nat _, .Inf => some .lt
  | .Inf, .Nat _ => some .gt
  | .Nat x, .Nat y => some (compare x y)

/-- The comparison produced by `#[derive(Ord)]` on `ExtNat`: variants compare
by declaration order (`Nat < Inf`), equal variants compare their payloads. -/
def ExtNat.cmp : ExtNat → ExtNat → Ordering
  | .Nat x, .Nat y => compare x y
  | .Nat _, .Inf => .lt
  | .Inf, .Nat _ => .gt
  | .Inf, .Inf => .eq

/-! ## The searcher's memo table (`SchemaSearcher::schema_rels`) -/

mutual

/-- Structural equality on schemas: the equivalence used by the
`BTreeMap<(&Schema, &Schema), Vec<IR>>` key comparison (derived
`PartialEq`/`Ord` on `Schema`). -/
def Schema.beq : Schema → Schema → Bool
  | .Ground g1, .Ground g2 => g1 == g2
  | .Arr s1, .Arr s2 => Schema.beq s1 s2
  | .Obj m1, .Obj m2 => beqEntries m1 m2
  | .True, .True => true
  | .False, .False => true
  | _, _ => false

/-- Entrywise structural equality of ordered `Obj` entry lists. -/
def beqEntries : List (String × Schema) → List (String × Schema) → Bool
  | [], [] => true
  | (k1, v1) :: r1, (k2, v2) :: r2 => k1 == k2 && Schema.beq v1 v2 && beqEntries r1 r2
  | _, _ => false

end

/-- The memo table of `SchemaSearcher` (`src/searcher.rs:60-62`), keyed by
the `(source, target)` schema pair. -/
abbrev Memo := List ((Schema × Schema) × List IR)

/-- `self.schema_rels.get(&(lhs, rhs))` (`src/searcher.rs:76`). -/
def memoLookup (m : Memo) (l r : Schema) : Option (List IR) :=
  match m with
  | [] => none
  | ((l', r'), p) :: rest =>
    if Schema.beq l l' && Schema.beq r r' then some p else memoLookup rest l r

mutual

/-- `SchemaSearcher::find_path` with its memo-table state threaded
explicitly (`&mut self` in `src/searcher.rs:73-156`): consult the memo
first (`src/searcher.rs:76-77`); on a miss run the case analysis
(`findPathMCore`).  The source never inserts into the table. -/
def findPathM (memo : Memo) (l r : Schema) : Except SearchErr (List IR) × Memo :=
  match memoLookup memo l r with
  | some p => (.ok p, memo)
  | none => findPathMCore memo l r
termination_by 2 * (sizeOf l + sizeOf r) + 1
decreasing_by
  simp_wf

/-- The memo-miss branch of the stateful `find_path`
(`src/searcher.rs:78-154`): the same case analysis as `findPath`, threading
the memo table through the recursive calls. -/
def findPathMCore (memo : Memo) : Schema → Schema → Except SearchErr (List IR) × Memo
  | .Ground g1, .Ground g2 =>
    if g1 = g2 then (.ok [IR.Copy], memo) else (.ok [IR.G2G g1 g2], memo)
  | .Ground _, .Arr _ => (.error .NoPath, memo)
  | .Ground g, .Obj o =>
    match o with
    | [(k, v)] =>
      match findPathM memo (.Ground g) v with
      | (.error e, m1) => (.error e, m1)
      | (.ok p, m1) => (.ok (p ++ [IR.Abs k]), m1)
    | _ => (.error .NoPath, memo)
  | .Arr _, .Ground _ => (.error .NoPath, memo)
  | .Arr s1, .Arr s2 =>
    match findPathM memo s1 s2 with
    | (.error e, m1) => (.error e, m1)
    | (.ok inner, m1) => (.ok ([IR.PushArr] ++ inner ++ [IR.PopArr]), m1)
  | .Arr _, .Obj _ => (.error .NoPath, memo)
  | .Obj o, .Ground g1 =>
    match extrKey o g1 with
    | some k => (.ok [IR.Extr k], memo)
    | none => (.error .NoPath, memo)
  | .Obj _, .Arr _ => (.error .NoPath, memo)
  | .Obj o1, .Obj o2 =>
    if o2.all (fun p => (lookupA o1 p.1).isSome) then
      match findPathEntriesM memo o1 o2 with
      | (.error e, m1) => (.error e, m1)
      | (.ok body, m1) => (.ok ([IR.PushObj] ++ body ++ [IR.PopObj]), m1)
    else (.error .NoPath, memo)
  | .True, _ => (.ok [], memo)
  | _, .True => (.ok [], memo)
  | .False, _ => (.error .NoPath, memo)
  | _, .False => (.error .NoPath, memo)
termination_by l r => 2 * (sizeOf l + sizeOf r)
decreasing_by
  all_goals simp_wf
  all_goals omega

/-- The `Obj → Obj` loop of the stateful `find_path`, threading the memo
table through the per-key recursive calls. -/
def findPathEntriesM : Memo → List (String × Schema) → List (String × Schema) →
    Except SearchErr (List IR) × Memo
  | memo, [], _ => (.ok [], memo)
  | memo, (k1, v1) :: rest, o2 =>
    match hm : lookupA o2 k1 with
    | none => findPathEntriesM memo rest o2
    | some v2 =>
      match findPathM memo v1 v2 with
      | (.error e, m1) => (.error e, m1)
      | (.ok conv, m1) =>
        match findPathEntriesM m1 rest o2 with
        | (.error e, m2) => (.error e, m2)
        | (.ok tail, m2) => (.ok ([IR.PushKey k1] ++ conv ++ [IR.PopKey] ++ tail), m2)
termination_by _ o1 o2 => 2 * (sizeOf o1 + sizeOf o2)
decreasing_by
  all_goals simp_wf
  all_goals
    (have hsz : ∀ (o : List (String × Schema)) (k : String) (v : Schema),
        lookupA o k = some v → sizeOf v < sizeOf o := by
      intro o k v h
      induction o with
      | nil => simp [lookupA] at h
      | cons hd tl ih =>
        obtain ⟨k1, v1⟩ := hd
        simp only [lookupA] at h
        split at h
        · cases h
          simp
          omega
        · have := ih h
          simp
          omega
     have := hsz _ _ _ hm
     omega)

end

/-! ## Schema parsing (`impl TryFrom<&Value> for Schema`, `src/schema.rs:110-157`) -/

/-- Schema-parse errors (`SchemaErr` in `src/schema.rs:58-63`). -/
inductive SchemaErr where
  | InvalidSchema
  | ArrNeedsItems
  | ObjNeedsProperties
deriving DecidableEq, Repr

/-- A parsed JSON document, the shape produced by `serde_json` (numbers are
opaque to the schema parser; an `Int` payload stands in for them).  An `obj`
carries its entries in map iteration order. -/
inductive JValue where
  | null : JValue
  | bool : Bool → JValue
  | num : Int → JValue
  | str : String → JValue
  | arr : List JValue → JValue
  | obj : List (String × JValue) → JValue

/-- `serde_json::Map::get` on the entry list of an object. -/
def jlookup : List (String × JValue) → String → Option JValue
  | [], _ => none
  | (k', v) :: rest, k => if k = k' then some v else jlookup rest k

/-- `BTreeMap::insert` on the ordered entry list: place the new entry at its
key's position, replacing an existing entry with an equal key. -/
def insertA : List (String × Schema) → String → Schema → List (String × Schema)
  | [], k, v => [(k, v)]
  | (k', v') :: rest, k, v =>
    if k < k' then (k, v) :: (k', v') :: rest
    else if k = k' then (k, v) :: rest
    else (k', v') :: insertA rest k v

mutual

/-- `Schema::try_from(&Value)` (`src/schema.rs:113-156`): booleans map to
`True`/`False`; objects are dispatched on their string `"type"` member;
`"array"` requires an `"items"` subschema, `"object"` requires a JSON-object
`"properties"` member whose entries are parsed recursively; every other
shape is `InvalidSchema`.  Errors of recursive parses propagate. -/
def tryFrom : JValue → Except SchemaErr Schema
  | .bool b => .ok (if b then .True else .False)
  | .obj fields =>
    match jlookup fields "type" with
    | none => .error .InvalidSchema
    | some (.str tyname) =>
      if tyname = "number" then .ok (.Ground .Num)
      else if tyname = "string" then .ok (.Ground .String)
      else if tyname = "boolean" then .ok (.Ground .Bool)
      else if tyname = "null" then .ok (.Ground .Null)
      else if tyname = "array" then
        match hit : jlookup fields "items" with
        | some itemty =>
          match tryFrom itemty with
          | .ok s => .ok (.Arr s)
          | .error e => .error e
        | none => .error .ArrNeedsItems
      else if tyname = "object" then
        match hpr : jlookup fields "properties" with
        | some (.obj props) =>
          match parsePropsAux [] props with
          | .ok m => .ok (.Obj m)
          | .error e => .error e
        | _ => .error .ObjNeedsProperties
      else .error .InvalidSchema
    | some _ => .error .InvalidSchema
  | _ => .error .InvalidSchema
termination_by v => sizeOf v
decreasing_by
  all_goals simp_wf
  · have hsz : ∀ (fs : List (String × JValue)) (k : String) (v : JValue),
        jlookup fs k = some v → sizeOf v < sizeOf fs := by
      intro fs k v h
      induction fs with
      | nil => simp [jlookup] at h
      | cons hd tl ih =>
        obtain ⟨k1, v1⟩ := hd
        simp only [jlookup] at h
        split at h
        · cases h
          simp
          omega
        · have := ih h
          simp
          omega
    have := hsz _ _ _ hit
    omega
  · have hsz : ∀ (fs : List (String × JValue)) (k : String) (v : JValue),
        jlookup fs k = some v → sizeOf v < sizeOf fs := by
      intro fs k v h
      induction fs with
      | nil => simp [jlookup] at h
      | cons hd tl ih =>
        obtain ⟨k1, v1⟩ := hd
        simp only [jlookup] at h
        split at h
        · cases h
          simp
          omega
        · have := ih h
          simp
          omega
    have := hsz _ _ _ hpr
    simp at this
    omega

/-- The `"properties"` loop of `try_from` (`src/schema.rs:136-147`):
parse each entry in iteration order, inserting into the accumulated map;
a failing entry aborts the loop with its error. -/
def parsePropsAux (acc : List (String × Schema)) :
    List (String × JValue) → Except SchemaErr (List (String × Schema))
  | [] => .ok acc
  | (k, sv) :: rest =>
    match tryFrom sv with
    | .error e => .error e
    | .ok s => parsePropsAux (insertA acc k s) rest
termination_by l => sizeOf l
decreasing_by
  all_goals simp_wf
  all_goals omega

end

/-! ## The §4.4 coercion table, as the spec states it -/

/-- Modelled from the spec: the coercion table of §4.4, read top to bottom —
the expression `COERCE(IN)` each covered `(from, to)` pair maps to, `none`
for a pair the table does not cover.  This is the spec-side definition that
`generateGroundToGround` is compared against. -/
def coerceExpr (g1 g2 : Ground) (inp : String) : Option String :=
  match g1, g2 with
  | _, .Null => some "null"
  | .Null, .Num => some "0"
  | .Null, .Bool => some "false"
  | .Null, .String => some "\"null\""
  | .Num, .Bool => some ("!(" ++ inp ++ " === 0)")
  | .Bool, .Num => some (inp ++ " ? 0 : 1")
  | .String, .Num => some ("parseInt(" ++ inp ++ ")")
  | .String, .Bool => some ("!!(" ++ inp ++ ")")
  | _, .String => some (inp ++ ".toString()")
  | _, _ => none

/-! ## Proof infrastructure -/

/-- The payload of a successful search, `[]` for a failed one.  Used to state
the object-arm characterization of `find_path`. -/
def okPath : Except SearchErr (List IR) → List IR
  | .ok p => p
  | .error _ => []

/-- The brace-nesting tracker of the indentation post-pass: the indentation
level after the given fragments, `none` if a `}`-ending fragment is met at
level zero (where `indent -= 1` would underflow). -/
def runBal : List String → Nat → Option Nat
  | [], n => some n
  | f :: rest, n =>
    match (if endsWithChar f '\x7d' then
            match n with
            | 0 => none
            | m + 1 => some m
           else some n) with
    | none => none
    | some n1 => runBal rest (if endsWithChar f '\x7b' then n1 + 1 else n1)

/-- Variable stacks on which `output_path` cannot panic: beneath a topmost
`Key` sits a `Var` (or nothing, in which case the return variable, itself a
`Var`, stands in). -/
def stackOk : List Level → Bool
  | [] => true
  | Level.Key _ :: rest =>
    match rest with
    | [] => true
    | Level.Var _ :: _ => true
    | _ => false
  | _ :: _ => true

/-- Everything the master induction carries about a searcher-produced path:
it is bracket-neutral on every frame stack, contains no `Inv`, and — when it
contains no `Extr` — the code generator runs it from any `output_path`-safe
state without aborting, restoring the variable stack, preserving the
argument and return-variable names, and emitting a brace-neutral fragment
list. -/
def PathOk (p : List IR) : Prop :=
  (∀ s, runWF p s = some s) ∧ IR.Inv ∉ p ∧
    ((∀ k, IR.Extr k ∉ p) → ∀ cg : JSCodegen, stackOk cg.varstack = true →
      ∃ cg2 frags, genLoop cg p = some (cg2, frags) ∧ cg2.varstack = cg.varstack ∧
        cg2.arg = cg.arg ∧ cg2.retvar = cg.retvar ∧ ∀ n, runBal frags n = some n)

/-- `PathOk`, specialized to the body emitted by the object-to-object loop,
which the code generator only ever enters with the freshly pushed object
`Var` on top of the stack. -/
def EntriesOk (b : List IR) : Prop :=
  (∀ s, runWF b s = some s) ∧ IR.Inv ∉ b ∧
    ((∀ k, IR.Extr k ∉ b) → ∀ (cg : JSCodegen) (v : String) (rest : List Level),
      cg.varstack = Level.Var v :: rest →
      ∃ cg2 frags, genLoop cg b = some (cg2, frags) ∧ cg2.varstack = cg.varstack ∧
        cg2.arg = cg.arg ∧ cg2.retvar = cg.retvar ∧ ∀ n, runBal frags n = some n)

/-- The names `JSCodegen::new_var` mints while one instruction is processed
(`arr`/`idx` for `PushArr`, `obj` for `PushObj`), in minting order. -/
def minted (cg : JSCodegen) (op : IR) : List String :=
  match op with
  | .PushArr => ["arr" ++ toString cg.uniq, "idx" ++ toString (cg.uniq + 1)]
  | .PushObj => ["obj" ++ toString cg.uniq]
  | _ => []

/-- All names minted during a run of the instruction loop, in minting order
(a run stops at an aborting instruction). -/
def mintedRun (cg : JSCodegen) : List IR → List String
  | [] => []
  | op :: rest =>
    minted cg op ++
      match genStep cg op with
      | none => []
      | some (cg1, _) => mintedRun cg1 rest

/-! ## Composition lemmas -/

theorem runWF_append (a b : List IR) (s : List Frame) :
    runWF (a ++ b) s = (runWF a s).bind (fun s2 => runWF b s2) := by
  induction a generalizing s with
  | nil => simp [runWF]
  | cons op rest ih =>
    cases op with
    | G2G g1 g2 => simp [runWF, ih]
    | Copy => simp [runWF, ih]
    | PushArr => simp [runWF, ih]
    | PushObj => simp [runWF, ih]
    | PushKey k => simp [runWF, ih]
    | Abs k => simp [runWF, ih]
    | Extr k => simp [runWF, ih]
    | Inv => simp [runWF, ih]
    | PopArr =>
      rcases s with _ | ⟨fr, s2⟩
      · simp [runWF]
      · cases fr <;> simp [runWF, ih]
    | PopObj =>
      rcases s with _ | ⟨fr, s2⟩
      · simp [runWF]
      · cases fr <;> simp [runWF, ih]
    | PopKey =>
      rcases s with _ | ⟨fr, s2⟩
      · simp [runWF]
      · cases fr <;> simp [runWF, ih]

theorem genLoop_append (a b : List IR) (cg : JSCodegen) :
    genLoop cg (a ++ b) =
      (genLoop cg a).bind (fun x => (genLoop x.1 b).map (fun y => (y.1, x.2 ++ y.2))) := by
  induction a generalizing cg with
  | nil =>
    cases h : genLoop cg b with
    | none => simp [genLoop, h]
    | some y => simp [genLoop, h]
  | cons op rest ih =>
    cases hs : genStep cg op with
    | none => simp [genLoop, hs]
    | some x =>
      obtain ⟨cg1, fs⟩ := x
      have h3 := ih cg1
      cases h1 : genLoop cg1 rest with
      | none =>
        rw [h1] at h3
        simp at h3
        simp [genLoop, hs, h3, h1]
      | some y =>
        obtain ⟨cg2, fs2⟩ := y
        rw [h1] at h3
        simp at h3
        cases h2 : genLoop cg2 b with
        | none =>
          rw [h2] at h3
          simp at h3
          simp [genLoop, hs, h3, h1, h2]
        | some z =>
          obtain ⟨cg3, fs3⟩ := z
          rw [h2] at h3
          simp at h3
          simp [genLoop, hs, h3, h1, h2, List.append_assoc]

theorem runBal_append (a b : List String) (n : Nat) :
    runBal (a ++ b) n = (runBal a n).bind (fun m => runBal b m) := by
  induction a generalizing n with
  | nil => simp [runBal]
  | cons f rest ih =>
    cases hb : endsWithChar f '\x7d' with
    | false => simp [runBal, hb, ih]
    | true =>
      cases n with
      | zero => simp [runBal, hb]
      | succ m => simp [runBal, hb, ih]

theorem endsWithChar_append (a b : String) (c : Char) (hb : b.data ≠ []) :
    endsWithChar (a ++ b) c = endsWithChar b c := by
  simp only [endsWithChar, String.data_append]
  rw [List.getLast?_append_of_ne_nil _ hb]

theorem outputPath_isSome {cg : JSCodegen} (h : stackOk cg.varstack = true) :
    ∃ o, outputPath cg = some o := by
  rcases hcv : cg.varstack with _ | ⟨lvl, rest⟩
  · exact ⟨cg.retvar, by simp [outputPath, hcv]⟩
  · cases lvl with
    | Var v => exact ⟨v, by simp [outputPath, hcv]⟩
    | Arr a i => exact ⟨a ++ "[" ++ i ++ "]", by simp [outputPath, hcv]⟩
    | Key k =>
      rw [hcv] at h
      rcases rest with _ | ⟨lvl2, rest2⟩
      · exact ⟨cg.retvar ++ "." ++ k, by simp [outputPath, hcv]⟩
      · cases lvl2 with
        | Var v => exact ⟨v ++ "." ++ k, by simp [outputPath, hcv]⟩
        | Arr a i => simp [stackOk] at h
        | Key k2 => simp [stackOk] at h

theorem indentFrags_isSome :
    ∀ (fr : List String) (n m : Nat), runBal fr n = some m →
      ∃ l, indentFrags fr n = some l := by
  intro fr
  induction fr with
  | nil => exact fun n m _ => ⟨[], rfl⟩
  | cons f rest ih =>
    intro n m h
    cases hb : endsWithChar f '\x7d' with
    | false =>
      simp [runBal, hb] at h
      obtain ⟨l, hl⟩ := ih _ _ h
      refine ⟨(String.mk (List.replicate (4 * n) ' ') ++ f) :: l, ?_⟩
      simp [indentFrags, hb, hl]
    | true =>
      cases n with
      | zero => simp [runBal, hb] at h
      | succ n1 =>
        simp [runBal, hb] at h
        obtain ⟨l, hl⟩ := ih _ _ h
        refine ⟨(String.mk (List.replicate (4 * n1) ' ') ++ f) :: l, ?_⟩
        simp [indentFrags, hb, hl]

theorem runBal_cons_plain (f : String) (rest : List String) (n : Nat)
    (h1 : endsWithChar f '\x7d' = false) (h2 : endsWithChar f '\x7b' = false) :
    runBal (f :: rest) n = runBal rest n := by
  simp [runBal, h1, h2]

theorem runBal_cons_open (f : String) (rest : List String) (n : Nat)
    (h1 : endsWithChar f '\x7d' = false) (h2 : endsWithChar f '\x7b' = true) :
    runBal (f :: rest) n = runBal rest (n + 1) := by
  simp [runBal, h1, h2]

theorem runBal_cons_close (f : String) (rest : List String) (n : Nat)
    (h1 : endsWithChar f '\x7d' = true) (h2 : endsWithChar f '\x7b' = false) :
    runBal (f :: rest) (n + 1) = runBal rest n := by
  simp [runBal, h1, h2]

/-- Every fragment `generate_ground_to_ground` emits ends in `;`, `"` or
`l` — never in a brace — so it leaves the indentation level unchanged. -/
theorem g2g_frag_plain (cg : JSCodegen) (g1 g2 : Ground) (fr : String)
    (h : generateGroundToGround cg g1 g2 = some (some fr)) :
    endsWithChar fr '\x7d' = false ∧ endsWithChar fr '\x7b' = false := by
  cases g1 <;> cases g2 <;> simp [generateGroundToGround] at h
  all_goals
    (obtain ⟨o, ho, hh⟩ := h
     subst hh
     constructor <;> (rw [endsWithChar_append _ _ _ (by decide)]; decide))

/-- A `G2G` instruction never aborts from an `output_path`-safe state: it
leaves the state unchanged and emits at most one level-neutral fragment. -/
theorem genStep_g2g (cg : JSCodegen) (g1 g2 : Ground) (hst : stackOk cg.varstack = true) :
    ∃ fr, genStep cg (.G2G g1 g2) = some (cg, fr) ∧ ∀ n, runBal fr n = some n := by
  obtain ⟨o, ho⟩ := outputPath_isSome hst
  cases hg : generateGroundToGround cg g1 g2 with
  | none =>
    exfalso
    cases g1 <;> cases g2 <;> simp [generateGroundToGround, ho] at hg
  | some x =>
    cases x with
    | none => exact ⟨[], by simp [genStep, hg], fun _ => rfl⟩
    | some fr =>
      obtain ⟨h1, h2⟩ := g2g_frag_plain cg g1 g2 fr hg
      refine ⟨[fr], by simp [genStep, hg], fun n => ?_⟩
      rw [runBal_cons_plain _ _ _ h1 h2]
      rfl

/-! ## `PathOk` building blocks -/

theorem pathOk_nil : PathOk [] := by
  refine ⟨fun s => rfl, by simp, fun _ cg _ => ?_⟩
  exact ⟨cg, [], rfl, rfl, rfl, rfl, fun _ => rfl⟩

theorem pathOk_append {a b : List IR} (ha : PathOk a) (hb : PathOk b) :
    PathOk (a ++ b) := by
  obtain ⟨wa, ia, ga⟩ := ha
  obtain ⟨wb, ib, gb⟩ := hb
  refine ⟨?_, ?_, ?_⟩
  · intro s
    rw [runWF_append, wa s]
    exact wb s
  · simp [List.mem_append, ia, ib]
  · intro hx cg hst
    have hxa : ∀ k, IR.Extr k ∉ a := fun k hk => hx k (List.mem_append_left _ hk)
    have hxb : ∀ k, IR.Extr k ∉ b := fun k hk => hx k (List.mem_append_right _ hk)
    obtain ⟨cg2, fa, hga, hva, haa, hra, hba⟩ := ga hxa cg hst
    have hst2 : stackOk cg2.varstack = true := by rw [hva]; exact hst
    obtain ⟨cg3, fb, hgb, hvb, hab, hrb, hbb⟩ := gb hxb cg2 hst2
    refine ⟨cg3, fa ++ fb, ?_, ?_, ?_, ?_, ?_⟩
    · rw [genLoop_append, hga]
      simp [hgb]
    · rw [hvb, hva]
    · rw [hab, haa]
    · rw [hrb, hra]
    · intro n
      rw [runBal_append, hba n]
      exact hbb n

theorem pathOk_copy : PathOk [IR.Copy] := by
  refine ⟨fun s => rfl, by simp, fun _ cg hst => ?_⟩
  obtain ⟨o, ho⟩ := outputPath_isSome hst
  refine ⟨cg, [o ++ " = structuredClone(" ++ inputPath cg ++ ");"],
    by simp [genLoop, genStep, ho], rfl, rfl, rfl, fun n => ?_⟩
  rw [runBal_cons_plain _ _ _ (by rw [endsWithChar_append _ _ _ (by decide)]; decide)
    (by rw [endsWithChar_append _ _ _ (by decide)]; decide)]
  rfl

theorem pathOk_g2g (g1 g2 : Ground) : PathOk [IR.G2G g1 g2] := by
  refine ⟨fun s => rfl, by simp, fun _ cg hst => ?_⟩
  obtain ⟨fr, hg, hb⟩ := genStep_g2g cg g1 g2 hst
  refine ⟨cg, fr, ?_, rfl, rfl, rfl, hb⟩
  simp [genLoop, hg]

theorem pathOk_abs (k : String) : PathOk [IR.Abs k] := by
  refine ⟨fun s => rfl, by simp, fun _ cg hst => ?_⟩
  obtain ⟨o, ho⟩ := outputPath_isSome hst
  refine ⟨cg, [o ++ " = \x7b\"" ++ k ++ "\": " ++ inputPath cg ++ " \x7d;"],
    by simp [genLoop, genStep, ho], rfl, rfl, rfl, fun n => ?_⟩
  rw [runBal_cons_plain _ _ _ (by rw [endsWithChar_append _ _ _ (by decide)]; decide)
    (by rw [endsWithChar_append _ _ _ (by decide)]; decide)]
  rfl

theorem genLoop_cons (cg : JSCodegen) (op : IR) (rest : List IR) (cg1 : JSCodegen)
    (fs : List String) (cg2 : JSCodegen) (fs2 : List String)
    (h1 : genStep cg op = some (cg1, fs)) (h2 : genLoop cg1 rest = some (cg2, fs2)) :
    genLoop cg (op :: rest) = some (cg2, fs ++ fs2) := by
  simp [genLoop, h1, h2]

theorem genLoop_single (cg : JSCodegen) (op : IR) (cg1 : JSCodegen) (fs : List String)
    (h : genStep cg op = some (cg1, fs)) : genLoop cg [op] = some (cg1, fs) := by
  simp [genLoop, h]

theorem genLoop_append_ok (a b : List IR) (cg cg1 : JSCodegen) (fa : List String)
    (cg2 : JSCodegen) (fb : List String)
    (h1 : genLoop cg a = some (cg1, fa)) (h2 : genLoop cg1 b = some (cg2, fb)) :
    genLoop cg (a ++ b) = some (cg2, fa ++ fb) := by
  rw [genLoop_append, h1]
  simp [h2]

/-- Brace bookkeeping for the array wrapper: an opening `for`-fragment, a
neutral body, the closing `}` and the assignment restore every level. -/
theorem runBal_arrShape (f1 f2 fassign : String) (fp : List String)
    (h1a : endsWithChar f1 '\x7d' = false) (h1b : endsWithChar f1 '\x7b' = false)
    (h2a : endsWithChar f2 '\x7d' = false) (h2b : endsWithChar f2 '\x7b' = true)
    (h3a : endsWithChar fassign '\x7d' = false) (h3b : endsWithChar fassign '\x7b' = false)
    (hfp : ∀ n, runBal fp n = some n) :
    ∀ n, runBal (f1 :: f2 :: (fp ++ ["\x7d", fassign])) n = some n := by
  intro n
  rw [runBal_cons_plain _ _ _ h1a h1b, runBal_cons_open _ _ _ h2a h2b, runBal_append,
    hfp (n + 1)]
  show runBal ["\x7d", fassign] (n + 1) = some n
  rw [runBal_cons_close _ _ _ (by decide) (by decide), runBal_cons_plain _ _ _ h3a h3b]
  rfl

theorem pathOk_arrWrap {p : List IR} (hp : PathOk p) :
    PathOk ([IR.PushArr] ++ p ++ [IR.PopArr]) := by
  obtain ⟨wp, ip, gp⟩ := hp
  refine ⟨?_, ?_, ?_⟩
  · intro s
    simp [runWF_append, runWF, wp]
  · simp [List.mem_append, ip]
  · intro hx cg hst
    have hxp : ∀ k, IR.Extr k ∉ p := fun k hk => hx k (by simp [hk])
    have hstep : genStep cg .PushArr = some
        ({ cg with
            uniq := cg.uniq + 2
            varstack := Level.Arr ("arr" ++ toString cg.uniq) ("idx" ++ toString (cg.uniq + 1))
              :: cg.varstack },
         ["let " ++ ("arr" ++ toString cg.uniq) ++ " = [];",
          "for (let " ++ ("idx" ++ toString (cg.uniq + 1)) ++ " = 0; "
            ++ ("idx" ++ toString (cg.uniq + 1)) ++ " < " ++ inputPath cg ++ ".length; "
            ++ ("idx" ++ toString (cg.uniq + 1)) ++ "++) \x7b"]) := rfl
    obtain ⟨cg2, fp, hgp, hvp, hap, hrp, hbp⟩ := gp hxp
      { cg with
        uniq := cg.uniq + 2
        varstack := Level.Arr ("arr" ++ toString cg.uniq) ("idx" ++ toString (cg.uniq + 1))
          :: cg.varstack } rfl
    have ho := @outputPath_isSome { cg2 with varstack := cg.varstack }
      (by simpa using hst)
    obtain ⟨o, ho⟩ := ho
    have hpop : genStep cg2 .PopArr = some ({ cg2 with varstack := cg.varstack },
        ["\x7d", o ++ " = " ++ ("arr" ++ toString cg.uniq) ++ ";"]) := by
      rw [genStep, hvp]
      simp [ho]
    refine ⟨{ cg2 with varstack := cg.varstack },
      ["let " ++ ("arr" ++ toString cg.uniq) ++ " = [];",
       "for (let " ++ ("idx" ++ toString (cg.uniq + 1)) ++ " = 0; "
         ++ ("idx" ++ toString (cg.uniq + 1)) ++ " < " ++ inputPath cg ++ ".length; "
         ++ ("idx" ++ toString (cg.uniq + 1)) ++ "++) \x7b"]
        ++ fp ++ ["\x7d", o ++ " = " ++ ("arr" ++ toString cg.uniq) ++ ";"],
      ?_, rfl, hap, hrp, ?_⟩
    · exact genLoop_append_ok _ _ _ _ _ _ _
        (genLoop_append_ok _ _ _ _ _ _ _ (genLoop_single _ _ _ _ hstep) hgp)
        (genLoop_single _ _ _ _ hpop)
    · intro n
      show runBal (("let " ++ ("arr" ++ toString cg.uniq) ++ " = [];")
        :: ("for (let " ++ ("idx" ++ toString (cg.uniq + 1)) ++ " = 0; "
             ++ ("idx" ++ toString (cg.uniq + 1)) ++ " < " ++ inputPath cg ++ ".length; "
             ++ ("idx" ++ toString (cg.uniq + 1)) ++ "++) \x7b")
        :: (fp ++ ["\x7d", o ++ " = " ++ ("arr" ++ toString cg.uniq) ++ ";"])) n = some n
      exact runBal_arrShape _ _ _ fp
        (by rw [endsWithChar_append _ _ _ (by decide)]; decide)
        (by rw [endsWithChar_append _ _ _ (by decide)]; decide)
        (by rw [endsWithChar_append _ _ _ (by decide)]; decide)
        (by rw [endsWithChar_append _ _ _ (by decide)]; decide)
        (by rw [endsWithChar_append _ _ _ (by decide)]; decide)
        (by rw [endsWithChar_append _ _ _ (by decide)]; decide)
        hbp n

theorem entriesOk_nil : EntriesOk [] := by
  refine ⟨fun s => rfl, by simp, fun _ cg v rest _ => ?_⟩
  exact ⟨cg, [], rfl, rfl, rfl, rfl, fun _ => rfl⟩

theorem entriesOk_cons {conv tail : List IR} (k : String)
    (hc : PathOk conv) (ht : EntriesOk tail) :
    EntriesOk ([IR.PushKey k] ++ conv ++ [IR.PopKey] ++ tail) := by
  obtain ⟨wc, ic, gc⟩ := hc
  obtain ⟨wt, it, gt⟩ := ht
  refine ⟨?_, ?_, ?_⟩
  · intro s
    simp [runWF_append, runWF, wc, wt]
  · simp [List.mem_append, ic, it]
  · intro hx cg v rest0 hcv
    have hxc : ∀ k2, IR.Extr k2 ∉ conv := fun k2 hk => hx k2 (by simp [hk])
    have hxt : ∀ k2, IR.Extr k2 ∉ tail := fun k2 hk => hx k2 (by simp [hk])
    have hpush : genStep cg (.PushKey k) =
        some ({ cg with varstack := Level.Key k :: cg.varstack }, []) := rfl
    have hst1 : stackOk ({ cg with varstack := Level.Key k :: cg.varstack } :
        JSCodegen).varstack = true := by
      simp [stackOk, hcv]
    obtain ⟨cg2, fc, hgc, hvc, hac, hrc, hbc⟩ := gc hxc _ hst1
    have hpop : genStep cg2 .PopKey = some ({ cg2 with varstack := cg.varstack }, []) := by
      rw [genStep, hvc]
    obtain ⟨cg4, ftl, hgt, hvt, hat, hrt, hbt⟩ :=
      gt hxt { cg2 with varstack := cg.varstack } v rest0 (by simpa using hcv)
    refine ⟨cg4, fc ++ ftl, ?_, ?_, ?_, ?_, ?_⟩
    · have hall := genLoop_append_ok _ _ _ _ _ _ _
        (genLoop_append_ok _ _ _ _ _ _ _
          (genLoop_append_ok _ _ _ _ _ _ _ (genLoop_single _ _ _ _ hpush) hgc)
          (genLoop_single _ _ _ _ hpop)) hgt
      simpa using hall
    · exact hvt
    · exact hat.trans hac
    · exact hrt.trans hrc
    · intro n
      rw [runBal_append, hbc n]
      exact hbt n

theorem pathOk_objWrap {b : List IR} (hb : EntriesOk b) :
    PathOk ([IR.PushObj] ++ b ++ [IR.PopObj]) := by
  obtain ⟨wb, ib, gb⟩ := hb
  refine ⟨?_, ?_, ?_⟩
  · intro s
    simp [runWF_append, runWF, wb]
  · simp [List.mem_append, ib]
  · intro hx cg hst
    have hxb : ∀ k, IR.Extr k ∉ b := fun k hk => hx k (by simp [hk])
    have hpush : genStep cg .PushObj = some
        ({ cg with
            uniq := cg.uniq + 1
            varstack := Level.Var ("obj" ++ toString cg.uniq) :: cg.varstack },
         ["let " ++ ("obj" ++ toString cg.uniq) ++ " = \x7b\x7d;"]) := rfl
    obtain ⟨cg2, fb2, hgb, hvb, hab, hrb, hbb⟩ := gb hxb
      { cg with
        uniq := cg.uniq + 1
        varstack := Level.Var ("obj" ++ toString cg.uniq) :: cg.varstack }
      ("obj" ++ toString cg.uniq) cg.varstack rfl
    obtain ⟨o, ho⟩ := @outputPath_isSome { cg2 with varstack := cg.varstack }
      (by simpa using hst)
    have hpop : genStep cg2 .PopObj = some ({ cg2 with varstack := cg.varstack },
        [o ++ " = " ++ ("obj" ++ toString cg.uniq) ++ ";"]) := by
      rw [genStep, hvb]
      simp [ho, levelString]
    refine ⟨{ cg2 with varstack := cg.varstack },
      ["let " ++ ("obj" ++ toString cg.uniq) ++ " = \x7b\x7d;"] ++ fb2
        ++ [o ++ " = " ++ ("obj" ++ toString cg.uniq) ++ ";"],
      ?_, rfl, hab, hrb, ?_⟩
    · exact genLoop_append_ok _ _ _ _ _ _ _
        (genLoop_append_ok _ _ _ _ _ _ _ (genLoop_single _ _ _ _ hpush) hgb)
        (genLoop_single _ _ _ _ hpop)
    · intro n
      show runBal (("let " ++ ("obj" ++ toString cg.uniq) ++ " = \x7b\x7d;")
        :: (fb2 ++ [o ++ " = " ++ ("obj" ++ toString cg.uniq) ++ ";"])) n = some n
      rw [runBal_cons_plain _ _ _ (by rw [endsWithChar_append _ _ _ (by decide)]; decide)
        (by rw [endsWithChar_append _ _ _ (by decide)]; decide), runBal_append, hbb n]
      show runBal [o ++ " = " ++ ("obj" ++ toString cg.uniq) ++ ";"] n = some n
      rw [runBal_cons_plain _ _ _ (by rw [endsWithChar_append _ _ _ (by decide)]; decide)
        (by rw [endsWithChar_append _ _ _ (by decide)]; decide)]
      rfl

theorem findPathEntries_cons_none {o2 : List (String × Schema)} {k1 : String}
    {v1 : Schema} {rest : List (String × Schema)} (h : lookupA o2 k1 = none) :
    findPathEntries ((k1, v1) :: rest) o2 = findPathEntries rest o2 := by
  rw [findPathEntries]
  split
  next heq => rfl
  next v2 heq =>
    rw [h] at heq
    simp at heq

theorem findPathEntries_cons_some {o2 : List (String × Schema)} {k1 : String}
    {v1 v2 : Schema} {rest : List (String × Schema)} (h : lookupA o2 k1 = some v2) :
    findPathEntries ((k1, v1) :: rest) o2 =
      match findPath v1 v2 with
      | .error e => .error e
      | .ok conv =>
        match findPathEntries rest o2 with
        | .error e => .error e
        | .ok tail => .ok ([IR.PushKey k1] ++ conv ++ [IR.PopKey] ++ tail) := by
  rw [findPathEntries]
  split
  next heq =>
    rw [h] at heq
    simp at heq
  next v2x heq =>
    rw [h] at heq
    injection heq with heq
    subst heq
    rfl

theorem pathOk_extr (k : String) : PathOk [IR.Extr k] := by
  refine ⟨fun s => rfl, by simp, fun hx => (hx k (by simp)).elim⟩

/-- Master lemma: every path `find_path` returns satisfies `PathOk`, and
every body the object-to-object loop returns satisfies `EntriesOk`. -/
theorem findPath_pathOk :
    ∀ l r : Schema, ∀ p, findPath l r = .ok p → PathOk p := by
  apply findPath.induct
    (fun l r => ∀ p, findPath l r = .ok p → PathOk p)
    (fun o1 o2 => ∀ b, findPathEntries o1 o2 = .ok b → EntriesOk b)
  · intro g2 p hp
    simp [findPath] at hp
    subst hp
    exact pathOk_copy
  · intro g1 g2 hne p hp
    simp [findPath, hne] at hp
    subst hp
    exact pathOk_g2g g1 g2
  · intro a a1 p hp
    simp [findPath] at hp
  · intro g k v e he ih p hp
    simp [findPath, he] at hp
  · intro g k v p0 hok ih p hp
    simp [findPath, hok] at hp
    subst hp
    exact pathOk_append (ih p0 hok) (pathOk_abs k)
  · intro g o hne p hp
    rcases o with _ | ⟨⟨k, v⟩, _ | ⟨hd2, tl2⟩⟩
    · simp [findPath] at hp
    · exact (hne k v rfl).elim
    · simp [findPath] at hp
  · intro a a1 p hp
    simp [findPath] at hp
  · intro s1 s2 e he ih p hp
    simp [findPath, he] at hp
  · intro s1 s2 p0 hok ih p hp
    simp [findPath, hok] at hp
    subst hp
    simpa using pathOk_arrWrap (ih p0 hok)
  · intro a a1 p hp
    simp [findPath] at hp
  · intro o g1 k hk p hp
    simp [findPath, hk] at hp
    subst hp
    exact pathOk_extr k
  · intro o g1 hk p hp
    simp [findPath, hk] at hp
  · intro a a1 p hp
    simp [findPath] at hp
  · intro o1 o2 hall e he ih p hp
    simp [findPath, hall, he] at hp
  · intro o1 o2 hall p0 hok ih p hp
    simp [findPath, hall, hok] at hp
    subst hp
    simpa using pathOk_objWrap (ih p0 hok)
  · intro o1 o2 hall p hp
    simp [findPath, hall] at hp
  · intro x p hp
    simp [findPath] at hp
    subst hp
    exact pathOk_nil
  · intro x hne p hp
    cases x <;> first
      | exact (hne rfl).elim
      | (simp [findPath] at hp
         subst hp
         exact pathOk_nil)
  · intro x hne p hp
    cases x <;> first
      | exact (hne rfl).elim
      | simp [findPath] at hp
  · intro x hne1 hne2 p hp
    cases x <;> first
      | exact (hne1 rfl).elim
      | exact (hne2 rfl).elim
      | simp [findPath] at hp
  · intro x b hb
    simp [findPathEntries] at hb
    subst hb
    exact entriesOk_nil
  · intro k1 v1 rest o2 hlk ih b hb
    rw [findPathEntries_cons_none hlk] at hb
    exact ih b hb
  · intro k1 v1 rest o2 v2 hlk e herr ih b hb
    rw [findPathEntries_cons_some hlk] at hb
    simp [herr] at hb
  · intro k1 v1 rest o2 v2 hlk p hokp e herr ih1 ih2 b hb
    rw [findPathEntries_cons_some hlk] at hb
    simp [hokp, herr] at hb
  · intro k1 v1 rest o2 v2 hlk p hokp p2 hokt ih1 ih2 b hb
    rw [findPathEntries_cons_some hlk] at hb
    simp [hokp, hokt] at hb
    subst hb
    simpa using entriesOk_cons k1 (ih1 p hokp) (ih2 p2 hokt)

/-! ## Claim theorems: C3, C1, C4 -/

/-- **C3.** For every pair of schemas, if `find_path` returns `Ok ir` then
`ir` is well-formed: the bracket checker started on the empty frame stack
consumes `ir` and ends on the empty stack — every `PushArr`/`PushObj`/
`PushKey` is closed by its matching `PopArr`/`PopObj`/`PopKey`, the pairs are
balanced and properly nested, and no `Pop*` occurs without a matching open
`Push*` of the same kind. -/
theorem c3_searcher_only_emits_wellformed_ir (l r : Schema) (p : List IR)
    (h : findPath l r = .ok p) : runWF p [] = some [] :=
  (findPath_pathOk l r p h).1 []

theorem c3_witness :
    findPath (.Arr (.Ground .Num)) (.Arr (.Ground .String)) =
        .ok [IR.PushArr, IR.G2G .Num .String, IR.PopArr] ∧
      runWF [IR.PushArr, IR.G2G .Num .String, IR.PopArr] [] = some [] :=
  ⟨by simp [findPath],
   c3_searcher_only_emits_wellformed_ir (.Arr (.Ground .Num)) (.Arr (.Ground .String))
     [IR.PushArr, IR.G2G .Num .String, IR.PopArr] (by simp [findPath])⟩

/-- **C1 counterexample.** The claim fails as stated: the searcher's
`Obj → Ground` arm produces `Ok [Extr "foo"]` for the schema pair
`({foo: Num}, Num)`, and `JSCodegen::generate` aborts on the unimplemented
`Extr` instruction (the `todo!()` arm, modelled by `none`). -/
theorem c1_counterexample :
    findPath (.Obj [("foo", .Ground .Num)]) (.Ground .Num) = .ok [IR.Extr "foo"] ∧
      generate (JSCodegen.new "input" "output") [IR.Extr "foo"] = none :=
  ⟨by simp [findPath, extrKey], rfl⟩

/-- **C1 (amended).** For every pair of schemas `(L, R)` with
`find_path(L, R) = Ok ir`, if `ir` contains no `Extr` instruction then
`JSCodegen::generate` completes on `ir` and returns a source string without
aborting: no invariant-violation panic, no unimplemented-instruction abort,
and no indentation underflow is reachable.  (`Extr`, reachable through the
`Obj → Ground` arm, aborts — see the counterexample.) -/
theorem c1_generate_no_abort (arg retvar : String) (l r : Schema) (p : List IR)
    (h : findPath l r = .ok p) (hx : ∀ k, IR.Extr k ∉ p) :
    (generate (JSCodegen.new arg retvar) p).isSome := by
  obtain ⟨-, -, hgen⟩ := findPath_pathOk l r p h
  obtain ⟨cg2, frags, hg, -, -, -, hbal⟩ := hgen hx (JSCodegen.new arg retvar) rfl
  obtain ⟨lines, hl⟩ := indentFrags_isSome frags 1 1 (hbal 1)
  rw [generate, hg]
  simp [hl]

theorem c1_witness :
    findPath (.Ground .Num) (.Ground .Num) = .ok [IR.Copy] ∧
      (∀ k, IR.Extr k ∉ [IR.Copy]) ∧
      (generate (JSCodegen.new "input" "output") [IR.Copy]).isSome :=
  ⟨by simp [findPath], by simp,
   c1_generate_no_abort "input" "output" (.Ground .Num) (.Ground .Num) [IR.Copy]
     (by simp [findPath]) (by simp)⟩

/-- **C4 counterexample.** The claim fails at `L = False`, `R = True` (and
symmetrically): the `True` arms of the `find_path` match precede the `False`
arms, so `find_path(False, True) = Ok []`, not `NoPath`. -/
theorem c4_counterexample :
    findPath .False .True = .ok [] ∧ findPath .True .False = .ok [] := by
  constructor <;> simp [findPath]

/-- **C4 (amended).** `find_path(False, R)` returns `NoPath` for every `R`
other than `True`, and `find_path(L, False)` returns `NoPath` for every `L`
other than `True`; when the other operand is `True`, the `True` arm applies
first and the result is `Ok []`. -/
theorem c4_false_yields_nopath :
    (∀ r : Schema, r ≠ .True → findPath .False r = .error .NoPath) ∧
      (∀ l : Schema, l ≠ .True → findPath l .False = .error .NoPath) := by
  constructor
  · intro r hr
    cases r <;> first
      | exact (hr rfl).elim
      | simp [findPath]
  · intro l hl
    cases l <;> first
      | exact (hl rfl).elim
      | simp [findPath]

theorem c4_witness :
    (Schema.Ground Ground.Num ≠ Schema.True) ∧
      findPath .False (.Ground .Num) = .error .NoPath ∧
      findPath (.Ground .Num) .False = .error .NoPath :=
  ⟨by simp, c4_false_yields_nopath.1 (.Ground .Num) (by simp),
   c4_false_yields_nopath.2 (.Ground .Num) (by simp)⟩

/-! ## Claim C2: the object-to-object arm -/

/-- The object loop, characterized: when every recursive search on a shared
key succeeds, the loop returns exactly the concatenation, over the source
entries in order, of `[PushKey k] ++ path(k) ++ [PopKey]` for shared keys and
nothing for keys absent from the target. -/
theorem findPathEntries_flatMap (m1 m2 : List (String × Schema))
    (hok : ∀ q ∈ m1, ∀ v2, lookupA m2 q.1 = some v2 → ∃ c, findPath q.2 v2 = .ok c) :
    findPathEntries m1 m2 = .ok (m1.flatMap fun q =>
      match lookupA m2 q.1 with
      | none => []
      | some v2 => [IR.PushKey q.1] ++ okPath (findPath q.2 v2) ++ [IR.PopKey]) := by
  induction m1 with
  | nil => simp [findPathEntries]
  | cons hd tl ih =>
    obtain ⟨k1, v1⟩ := hd
    have htl := ih (fun q hq v2 h => hok q (by simp [hq]) v2 h)
    cases hl : lookupA m2 k1 with
    | none =>
      rw [findPathEntries_cons_none hl, htl]
      simp [hl]
    | some v2 =>
      obtain ⟨conv, hconv⟩ := hok (k1, v1) (by simp) v2 hl
      rw [findPathEntries_cons_some hl, hconv, htl]
      simp [hl, hconv, okPath]

/-- **C2 counterexample.** With `m1 = {a: Arr(Num)}` and `m2 = {a: Num}` no
key of `m2` is absent from `m1`, yet `find_path(Obj m1, Obj m2)` returns
`NoPath` (the recursive search on the shared key `a` fails), contradicting
the claim's "otherwise it returns Ok of exactly [PushObj], ...". -/
theorem c2_counterexample :
    (∀ q ∈ [("a", Schema.Ground Ground.Num)],
        (lookupA [("a", Schema.Arr (Schema.Ground Ground.Num))] q.1).isSome) ∧
      findPath (.Obj [("a", .Arr (.Ground .Num))]) (.Obj [("a", .Ground .Num)]) =
        .error .NoPath := by
  constructor
  · decide
  · simp [findPath, findPathEntries, lookupA]

/-- **C2 (amended).** For object schemas `Obj m1`, `Obj m2` (entry lists in
ascending key order, as the `BTreeMap` stores them): if some key of `m2` is
absent from `m1` the search returns `NoPath`; otherwise, when every recursive
search on a shared key succeeds, it returns `Ok` of exactly `[PushObj]`, then
for each key of `m1` in source order `[PushKey k] ++ find_path(m1[k], m2[k])
++ [PopKey]` when `k` is shared (keys only in `m1` contribute nothing), then
`[PopObj]`; when a recursive search fails, that failure propagates instead. -/
theorem c2_obj_to_obj (m1 m2 : List (String × Schema))
    (hsorted : List.Chain' (fun a b : String × Schema => a.1 < b.1) m1) :
    ((∃ q ∈ m2, lookupA m1 q.1 = none) →
        findPath (.Obj m1) (.Obj m2) = .error .NoPath) ∧
      ((∀ q ∈ m2, (lookupA m1 q.1).isSome) →
        (∀ q ∈ m1, ∀ v2, lookupA m2 q.1 = some v2 → ∃ c, findPath q.2 v2 = .ok c) →
        findPath (.Obj m1) (.Obj m2) = .ok
          ([IR.PushObj] ++
            (m1.flatMap fun q =>
              match lookupA m2 q.1 with
              | none => []
              | some v2 => [IR.PushKey q.1] ++ okPath (findPath q.2 v2) ++ [IR.PopKey]) ++
            [IR.PopObj])) := by
  constructor
  · rintro ⟨q, hq, hnone⟩
    have hcond : ¬(m2.all fun p => (lookupA m1 p.1).isSome) = true := by
      simp only [List.all_eq_true, not_forall]
      exact ⟨q, hq, by simp [hnone]⟩
    simp [findPath, hcond]
  · intro hall hok
    have hcond : (m2.all fun p => (lookupA m1 p.1).isSome) = true := by
      simp only [List.all_eq_true]
      intro q hq
      simpa using hall q hq
    have hent := findPathEntries_flatMap m1 m2 hok
    simp [findPath, hcond, hent]

theorem c2_witness :
    List.Chain' (fun a b : String × Schema => a.1 < b.1)
        [("a", Schema.Ground Ground.Num)] ∧
      (∀ q ∈ [("a", Schema.Ground Ground.Num)],
        (lookupA [("a", Schema.Ground Ground.Num)] q.1).isSome) ∧
      findPath (.Obj [("a", .Ground .Num)]) (.Obj [("a", .Ground .Num)]) =
        .ok [IR.PushObj, IR.PushKey "a", IR.Copy, IR.PopKey, IR.PopObj] := by
  refine ⟨by simp, by decide, ?_⟩
  have h := (c2_obj_to_obj [("a", .Ground .Num)] [("a", .Ground .Num)] (by simp)).2
    (by decide) ?_
  · simpa [findPath, lookupA, okPath] using h
  · intro q hq v2 hv
    simp [lookupA] at hq hv
    subst hq
    simp [lookupA] at hv
    subst hv
    exact ⟨[IR.Copy], by simp [findPath]⟩

/-! ## Claim C6: the memo table is never written -/

theorem findPathEntriesM_cons_none {o2 : List (String × Schema)} {k1 : String}
    {v1 : Schema} {rest : List (String × Schema)} {memo : Memo}
    (h : lookupA o2 k1 = none) :
    findPathEntriesM memo ((k1, v1) :: rest) o2 = findPathEntriesM memo rest o2 := by
  rw [findPathEntriesM]
  split
  next heq => rfl
  next v2 heq =>
    rw [h] at heq
    simp at heq

theorem findPathEntriesM_cons_some {o2 : List (String × Schema)} {k1 : String}
    {v1 v2 : Schema} {rest : List (String × Schema)} {memo : Memo}
    (h : lookupA o2 k1 = some v2) :
    findPathEntriesM memo ((k1, v1) :: rest) o2 =
      match findPathM memo v1 v2 with
      | (.error e, m1) => (.error e, m1)
      | (.ok conv, m1) =>
        match findPathEntriesM m1 rest o2 with
        | (.error e, m2) => (.error e, m2)
        | (.ok tail, m2) => (.ok ([IR.PushKey k1] ++ conv ++ [IR.PopKey] ++ tail), m2) := by
  rw [findPathEntriesM]
  split
  next heq =>
    rw [h] at heq
    simp at heq
  next v2x heq =>
    rw [h] at heq
    injection heq with heq
    subst heq
    rfl

/-- The stateful `find_path` returns its memo table exactly as it received
it: no code path inserts into `schema_rels`. -/
theorem findPathM_memo_id :
    ∀ (memo : Memo) (l r : Schema), (findPathM memo l r).2 = memo := by
  apply findPathM.induct
    (fun memo l r => (findPathM memo l r).2 = memo)
    (fun memo l r => (findPathMCore memo l r).2 = memo)
    (fun memo o1 o2 => (findPathEntriesM memo o1 o2).2 = memo)
  · intro memo l r p hml
    rw [findPathM]
    simp [hml]
  · intro memo l r hml ih
    rw [findPathM]
    simp [hml]
    exact ih
  · intro memo g2
    simp [findPathMCore]
  · intro memo g1 g2 hne
    simp [findPathMCore, hne]
  · intro memo a a1
    simp [findPathMCore]
  · intro memo g k v e m1 hrec ih
    rw [hrec] at ih
    simp at ih
    simp [findPathMCore, hrec, ih]
  · intro memo g k v p m1 hrec ih
    rw [hrec] at ih
    simp at ih
    simp [findPathMCore, hrec, ih]
  · intro memo g o hne
    rcases o with _ | ⟨⟨k, v⟩, _ | ⟨hd2, tl2⟩⟩
    · simp [findPathMCore]
    · exact (hne k v rfl).elim
    · simp [findPathMCore]
  · intro memo a a1
    simp [findPathMCore]
  · intro memo s1 s2 e m1 hrec ih
    rw [hrec] at ih
    simp at ih
    simp [findPathMCore, hrec, ih]
  · intro memo s1 s2 p m1 hrec ih
    rw [hrec] at ih
    simp at ih
    simp [findPathMCore, hrec, ih]
  · intro memo a a1
    simp [findPathMCore]
  · intro memo o g1 k hk
    simp [findPathMCore, hk]
  · intro memo o g1 hk
    simp [findPathMCore, hk]
  · intro memo a a1
    simp [findPathMCore]
  · intro memo o1 o2 hall e m1 hrec ih
    rw [hrec] at ih
    simp at ih
    simp [findPathMCore, hall, hrec, ih]
  · intro memo o1 o2 hall p m1 hrec ih
    rw [hrec] at ih
    simp at ih
    simp [findPathMCore, hall, hrec, ih]
  · intro memo o1 o2 hall
    simp [findPathMCore, hall]
  · intro memo x
    simp [findPathMCore]
  · intro memo x hne
    cases x <;> first
      | exact (hne rfl).elim
      | simp [findPathMCore]
  · intro memo x hne
    cases x <;> first
      | exact (hne rfl).elim
      | simp [findPathMCore]
  · intro memo x hne1 hne2
    cases x <;> first
      | exact (hne1 rfl).elim
      | exact (hne2 rfl).elim
      | simp [findPathMCore]
  · intro memo x
    simp [findPathEntriesM]
  · intro memo k1 v1 rest o2 hlk ih
    rw [findPathEntriesM_cons_none hlk]
    exact ih
  · intro memo k1 v1 rest o2 v2 hlk e m1 hrec ih
    rw [findPathEntriesM_cons_some hlk]
    rw [hrec] at ih
    simp at ih
    simp [hrec, ih]
  · intro memo k1 v1 rest o2 v2 hlk p m1 hfp e m2 hent ih1 ih3
    rw [findPathEntriesM_cons_some hlk]
    rw [hfp] at ih1
    simp at ih1
    subst ih1
    rw [hent] at ih3
    simp at ih3
    simp [hfp, hent, ih3]
  · intro memo k1 v1 rest o2 v2 hlk p m1 hfp p2 m2 hent ih1 ih3
    rw [findPathEntriesM_cons_some hlk]
    rw [hfp] at ih1
    simp at ih1
    subst ih1
    rw [hent] at ih3
    simp at ih3
    simp [hfp, hent, ih3]

/-- On a fresh searcher (empty memo table, as built by `SchemaSearcher::new`)
the stateful `find_path` computes exactly the pure `findPath` and returns the
table still empty. -/
theorem findPathM_nil : ∀ (l r : Schema), findPathM [] l r = (findPath l r, []) := by
  have H := findPathM.induct
    (fun memo l r => memo = [] → findPathM memo l r = (findPath l r, []))
    (fun memo l r => memo = [] → findPathMCore memo l r = (findPath l r, []))
    (fun memo o1 o2 => memo = [] → findPathEntriesM memo o1 o2 = (findPathEntries o1 o2, []))
    ?_ ?_ ?_ ?_ ?_ ?_ ?_ ?_ ?_ ?_ ?_ ?_ ?_ ?_ ?_ ?_ ?_ ?_ ?_ ?_ ?_ ?_ ?_ ?_ ?_ ?_ ?_
  · intro l r
    exact H [] l r rfl
  · intro memo l r p hml hmem
    subst hmem
    simp [memoLookup] at hml
  · intro memo l r hml ih hmem
    subst hmem
    rw [findPathM]
    simp [hml]
    exact ih rfl
  · intro memo g2 hmem
    subst hmem
    simp [findPathMCore, findPath]
  · intro memo g1 g2 hne hmem
    subst hmem
    simp [findPathMCore, findPath, hne]
  · intro memo a a1 hmem
    subst hmem
    simp [findPathMCore, findPath]
  · intro memo g k v e m1 hrec ih hmem
    subst hmem
    have h2 := ih rfl
    rw [hrec] at h2
    rw [Prod.mk.injEq] at h2
    obtain ⟨ha, hb⟩ := h2
    subst hb
    simp [findPathMCore, findPath, hrec, ← ha]
  · intro memo g k v p m1 hrec ih hmem
    subst hmem
    have h2 := ih rfl
    rw [hrec] at h2
    rw [Prod.mk.injEq] at h2
    obtain ⟨ha, hb⟩ := h2
    subst hb
    simp [findPathMCore, findPath, hrec, ← ha]
  · intro memo g o hne hmem
    subst hmem
    rcases o with _ | ⟨⟨k, v⟩, _ | ⟨hd2, tl2⟩⟩
    · simp [findPathMCore, findPath]
    · exact (hne k v rfl).elim
    · simp [findPathMCore, findPath]
  · intro memo a a1 hmem
    subst hmem
    simp [findPathMCore, findPath]
  · intro memo s1 s2 e m1 hrec ih hmem
    subst hmem
    have h2 := ih rfl
    rw [hrec] at h2
    rw [Prod.mk.injEq] at h2
    obtain ⟨ha, hb⟩ := h2
    subst hb
    simp [findPathMCore, findPath, hrec, ← ha]
  · intro memo s1 s2 p m1 hrec ih hmem
    subst hmem
    have h2 := ih rfl
    rw [hrec] at h2
    rw [Prod.mk.injEq] at h2
    obtain ⟨ha, hb⟩ := h2
    subst hb
    simp [findPathMCore, findPath, hrec, ← ha]
  · intro memo a a1 hmem
    subst hmem
    simp [findPathMCore, findPath]
  · intro memo o g1 k hk hmem
    subst hmem
    simp [findPathMCore, findPath, hk]
  · intro memo o g1 hk hmem
    subst hmem
    simp [findPathMCore, findPath, hk]
  · intro memo a a1 hmem
    subst hmem
    simp [findPathMCore, findPath]
  · intro memo o1 o2 hall e m1 hrec ih hmem
    subst hmem
    have h2 := ih rfl
    rw [hrec] at h2
    rw [Prod.mk.injEq] at h2
    obtain ⟨ha, hb⟩ := h2
    subst hb
    simp [findPathMCore, findPath, hall, hrec, ← ha]
  · intro memo o1 o2 hall p m1 hrec ih hmem
    subst hmem
    have h2 := ih rfl
    rw [hrec] at h2
    rw [Prod.mk.injEq] at h2
    obtain ⟨ha, hb⟩ := h2
    subst hb
    simp [findPathMCore, findPath, hall, hrec, ← ha]
  · intro memo o1 o2 hall hmem
    subst hmem
    simp [findPathMCore, findPath, hall]
  · intro memo x hmem
    subst hmem
    simp [findPathMCore, findPath]
  · intro memo x hne hmem
    subst hmem
    cases x <;> first
      | exact (hne rfl).elim
      | simp [findPathMCore, findPath]
  · intro memo x hne hmem
    subst hmem
    cases x <;> first
      | exact (hne rfl).elim
      | simp [findPathMCore, findPath]
  · intro memo x hne1 hne2 hmem
    subst hmem
    cases x <;> first
      | exact (hne1 rfl).elim
      | exact (hne2 rfl).elim
      | simp [findPathMCore, findPath]
  · intro memo x hmem
    subst hmem
    simp [findPathEntriesM, findPathEntries]
  · intro memo k1 v1 rest o2 hlk ih hmem
    subst hmem
    rw [findPathEntriesM_cons_none hlk, findPathEntries_cons_none hlk]
    exact ih rfl
  · intro memo k1 v1 rest o2 v2 hlk e m1 hrec ih hmem
    subst hmem
    have h2 := ih rfl
    rw [hrec] at h2
    rw [Prod.mk.injEq] at h2
    obtain ⟨ha, hb⟩ := h2
    subst hb
    rw [findPathEntriesM_cons_some hlk, findPathEntries_cons_some hlk]
    simp [hrec, ← ha]
  · intro memo k1 v1 rest o2 v2 hlk p m1 hfp e m2 hent ih1 ih3 hmem
    subst hmem
    have h1 := ih1 rfl
    rw [hfp] at h1
    rw [Prod.mk.injEq] at h1
    obtain ⟨ha1, hb1⟩ := h1
    subst hb1
    have h3 := ih3 rfl
    rw [hent] at h3
    rw [Prod.mk.injEq] at h3
    obtain ⟨ha3, hb3⟩ := h3
    subst hb3
    rw [findPathEntriesM_cons_some hlk, findPathEntries_cons_some hlk]
    simp [hfp, hent, ← ha1, ← ha3]
  · intro memo k1 v1 rest o2 v2 hlk p m1 hfp p2 m2 hent ih1 ih3 hmem
    subst hmem
    have h1 := ih1 rfl
    rw [hfp] at h1
    rw [Prod.mk.injEq] at h1
    obtain ⟨ha1, hb1⟩ := h1
    subst hb1
    have h3 := ih3 rfl
    rw [hent] at h3
    rw [Prod.mk.injEq] at h3
    obtain ⟨ha3, hb3⟩ := h3
    subst hb3
    rw [findPathEntriesM_cons_some hlk, findPathEntries_cons_some hlk]
    simp [hfp, hent, ← ha1, ← ha3]

/-- **C6** (code bug): `find_path` consults `schema_rels` but never inserts
into it.  After any call — in particular a successful `find_path(L, R) =
Ok p` on a fresh searcher — the memo table is unchanged, so it does not
contain an entry keyed `(L, R)`; a later identical call recomputes rather
than answering from the memo.  The first conjunct is the general
no-insertion fact, the rest evaluates the failing input
`(Ground Num, Ground Num)`. -/
theorem c6_memo_never_written :
    (∀ (memo : Memo) (l r : Schema), (findPathM memo l r).2 = memo) ∧
      findPathM [] (.Ground .Num) (.Ground .Num) = (.ok [IR.Copy], []) ∧
      memoLookup [] (.Ground .Num) (.Ground .Num) = none :=
  ⟨findPathM_memo_id, by rw [findPathM_nil]; simp [findPath], rfl⟩

/-! ## Claim C7: the ExtNat ordering -/

/-- **C7** (code bug): the hand-written `PartialOrd for ExtNat` returns
`None` for `partial_cmp(Inf, Inf)`, even though the derived `PartialEq` has
`Inf == Inf` and the derived `Ord` (whose documented contract requires
`partial_cmp(a, b) == Some(cmp(a, b))`) compares `Inf` to `Inf` as `Equal`;
the claimed totality fails at that pair.  `Nat(n) < Inf` does hold for every
`n`. -/
theorem c7_extnat_partial_cmp_inf_inf_none :
    ExtNat.partialCmp .Inf .Inf = none ∧
      ExtNat.cmp .Inf .Inf = .eq ∧
      (ExtNat.Inf = ExtNat.Inf) ∧
      (∀ n : Nat, ExtNat.partialCmp (.Nat n) .Inf = some .lt) :=
  ⟨rfl, rfl, rfl, fun _ => rfl⟩

/-! ## Claim C5: the scalar coercion table -/

/-- **C5 counterexample.** The `Null → String` arm emits `OUT = "null"`
without the trailing semicolon, contradicting "each covered pair emits
exactly one statement of the shape `OUT = COERCE(IN);` (ending in a
semicolon)". -/
theorem c5_counterexample :
    generateGroundToGround (JSCodegen.new "input" "output") .Null .String =
        some (some "output = \"null\"") ∧
      endsWithChar "output = \"null\"" ';' = false := by
  constructor
  · rfl
  · decide

/-- **C5 (amended).** With `OUT` the current output path and `IN` the
current input path, `generate_ground_to_ground` follows the §4.4 coercion
table exactly: every covered pair emits exactly one fragment
`OUT = COERCE(IN);` — except that the `any → Null` arms and the
`Null → String` arm omit the trailing semicolon — in particular `Bool→Num`
emits `IN ? 0 : 1`; every pair not covered by the table emits nothing. -/
theorem c5_coercion_table (cg : JSCodegen) (g1 g2 : Ground) (o : String)
    (ho : outputPath cg = some o) :
    generateGroundToGround cg g1 g2 =
      some ((coerceExpr g1 g2 (inputPath cg)).map fun e =>
        o ++ " = " ++ e ++
          (if g2 = Ground.Null ∨ (g1 = Ground.Null ∧ g2 = Ground.String)
           then "" else ";")) := by
  cases g1 <;> cases g2 <;>
    simp [generateGroundToGround, coerceExpr, ho] <;>
    (apply String.ext
     simp [String.data_append, List.append_assoc])

theorem c5_witness :
    outputPath (JSCodegen.new "input" "output") = some "output" ∧
      generateGroundToGround (JSCodegen.new "input" "output") .Bool .Num =
        some ((coerceExpr .Bool .Num (inputPath (JSCodegen.new "input" "output"))).map
          fun e => "output" ++ " = " ++ e ++
            (if Ground.Num = Ground.Null ∨ (Ground.Bool = Ground.Null ∧ Ground.Num = Ground.String)
             then "" else ";")) :=
  ⟨rfl, c5_coercion_table (JSCodegen.new "input" "output") .Bool .Num "output" rfl⟩

/-! ## Claim C9: the PopKey instruction -/

/-- **C9 counterexample.** On an empty varstack, `PopKey` is a silent no-op
(`Vec::pop` returns `None`, the `if let` does not enter, nothing panics),
contradicting "it is a runtime error whenever the top of the varstack is not
a Key — including when the varstack is empty". -/
theorem c9_counterexample :
    genStep (JSCodegen.new "input" "output") .PopKey =
      some (JSCodegen.new "input" "output", []) := rfl

/-- **C9 (amended).** `PopKey` emits no output fragment; it pops the top of
the varstack when that top is a `Key`; it aborts when the varstack is
nonempty and its top is not a `Key`; on an empty varstack it is a silent
no-op. -/
theorem c9_popkey (cg : JSCodegen) :
    (cg.varstack = [] → genStep cg .PopKey = some (cg, [])) ∧
      (∀ k rest, cg.varstack = Level.Key k :: rest →
        genStep cg .PopKey = some ({ cg with varstack := rest }, [])) ∧
      (∀ lvl rest, cg.varstack = lvl :: rest → (∀ k, lvl ≠ Level.Key k) →
        genStep cg .PopKey = none) := by
  refine ⟨?_, ?_, ?_⟩
  · intro h
    rw [genStep, h]
  · intro k rest h
    rw [genStep, h]
  · intro lvl rest h hk
    cases lvl with
    | Key k => exact (hk k rfl).elim
    | Var v => rw [genStep, h]
    | Arr a i => rw [genStep, h]

theorem c9_witness :
    genStep { varstack := [Level.Key "k"], arg := "input", retvar := "output", uniq := 0 }
        .PopKey =
      some ({ varstack := [], arg := "input", retvar := "output", uniq := 0 }, []) :=
  (c9_popkey _).2.1 "k" [] rfl

/-! ## Claim C8: schema-parse error classification -/

/-- When every property value parses, the `"properties"` loop succeeds. -/
theorem parsePropsAux_ok (l : List (String × JValue))
    (h : ∀ q ∈ l, ∃ s, tryFrom q.2 = .ok s) :
    ∀ acc, ∃ m, parsePropsAux acc l = .ok m := by
  induction l with
  | nil => exact fun acc => ⟨acc, by rw [parsePropsAux]⟩
  | cons hd tl ih =>
    intro acc
    obtain ⟨k, sv⟩ := hd
    obtain ⟨s, hs⟩ := h (k, sv) (by simp)
    obtain ⟨m, hm⟩ := ih (fun q hq => h q (by simp [hq])) (insertA acc k s)
    exact ⟨m, by rw [parsePropsAux, hs]; exact hm⟩

/-- **C8 counterexample.** The value
`{"items": {"type": "array"}, "type": "array"}` is an object with
`"type": "array"` and an `"items"` member, yet `try_from` returns
`ArrNeedsItems` — the error of the recursively parsed `items` subschema
(which itself lacks `items`) propagates — contradicting the claimed
"exactly when ... no items member". -/
theorem c8_counterexample :
    (jlookup [("items", JValue.obj [("type", JValue.str "array")]),
              ("type", JValue.str "array")] "items").isSome = true ∧
      tryFrom (.obj [("items", JValue.obj [("type", JValue.str "array")]),
                     ("type", JValue.str "array")]) = .error .ArrNeedsItems := by
  constructor
  · decide
  · simp [tryFrom, jlookup]

theorem tryFrom_arr_noItems {fields : List (String × JValue)}
    (hty : jlookup fields "type" = some (.str "array"))
    (hit : jlookup fields "items" = none) :
    tryFrom (.obj fields) = .error .ArrNeedsItems := by
  rw [tryFrom, hty]
  simp only [String.reduceEq, reduceIte]
  split
  next it heq =>
    rw [hit] at heq
    simp at heq
  next heq => rfl

theorem tryFrom_arr_items {fields : List (String × JValue)} {it : JValue}
    (hty : jlookup fields "type" = some (.str "array"))
    (hit : jlookup fields "items" = some it) :
    tryFrom (.obj fields) =
      match tryFrom it with
      | .ok s => .ok (.Arr s)
      | .error e => .error e := by
  rw [tryFrom, hty]
  simp only [String.reduceEq, reduceIte]
  split
  next it2 heq =>
    rw [hit] at heq
    injection heq with heq
    subst heq
    rfl
  next heq =>
    rw [hit] at heq
    simp at heq

theorem tryFrom_object_props {fields : List (String × JValue)}
    {props : List (String × JValue)}
    (hty : jlookup fields "type" = some (.str "object"))
    (hpr : jlookup fields "properties" = some (.obj props)) :
    tryFrom (.obj fields) =
      match parsePropsAux [] props with
      | .ok m => .ok (.Obj m)
      | .error e => .error e := by
  rw [tryFrom, hty]
  simp only [String.reduceEq, reduceIte]
  split
  next props2 heq =>
    rw [hpr] at heq
    injection heq with heq
    injection heq with heq
    subst heq
    rfl
  next heq =>
    exact absurd hpr (heq props)

theorem tryFrom_object_noProps {fields : List (String × JValue)}
    (hty : jlookup fields "type" = some (.str "object"))
    (hpr : ∀ props, jlookup fields "properties" ≠ some (.obj props)) :
    tryFrom (.obj fields) = .error .ObjNeedsProperties := by
  rw [tryFrom, hty]
  simp only [String.reduceEq, reduceIte]

/-- **C8 (amended).** Provided every recursively parsed subschema parses
successfully (the `items` subschema of an `"array"` object; each property of
an `"object"` object's `"properties"`), `try_from` classifies exactly as the
claim states: `ArrNeedsItems` iff the value is an object with
`"type": "array"` and no `"items"` member; `ObjNeedsProperties` iff it is an
object with `"type": "object"` whose `"properties"` member is absent or not
a JSON object; `InvalidSchema` iff it is neither a boolean nor an object
with a recognized string `"type"`; and `Ok` in all remaining cases.
Without that proviso, errors of recursive parses propagate outward (see the
counterexample). -/
theorem c8_parse_error_classification (v : JValue)
    (hitems : ∀ fields it, v = .obj fields →
      jlookup fields "type" = some (.str "array") →
      jlookup fields "items" = some it → ∃ s, tryFrom it = .ok s)
    (hprops : ∀ fields props, v = .obj fields →
      jlookup fields "type" = some (.str "object") →
      jlookup fields "properties" = some (.obj props) →
      ∀ q ∈ props, ∃ s, tryFrom q.2 = .ok s) :
    (tryFrom v = .error .ArrNeedsItems ↔
      ∃ fields, v = .obj fields ∧ jlookup fields "type" = some (.str "array") ∧
        jlookup fields "items" = none) ∧
    (tryFrom v = .error .ObjNeedsProperties ↔
      ∃ fields, v = .obj fields ∧ jlookup fields "type" = some (.str "object") ∧
        ∀ props, jlookup fields "properties" ≠ some (.obj props)) ∧
    (tryFrom v = .error .InvalidSchema ↔
      ((∀ b, v ≠ .bool b) ∧
        ¬∃ fields ty, v = .obj fields ∧ jlookup fields "type" = some (.str ty) ∧
          ty ∈ (["number", "string", "boolean", "null", "array", "object"] :
            List String))) := by
  rcases v with _ | b | n | s | xs | fields
  · refine ⟨iff_of_false (by simp [tryFrom]) ?_, iff_of_false (by simp [tryFrom]) ?_,
      iff_of_true (by simp [tryFrom]) ⟨by simp, ?_⟩⟩
    · rintro ⟨fields, heq, -, -⟩
      simp at heq
    · rintro ⟨fields, heq, -, -⟩
      simp at heq
    · rintro ⟨fields, ty, heq, -, -⟩
      simp at heq
  · refine ⟨iff_of_false (by simp [tryFrom]) ?_, iff_of_false (by simp [tryFrom]) ?_,
      iff_of_false (by simp [tryFrom]) ?_⟩
    · rintro ⟨fields, heq, -, -⟩
      simp at heq
    · rintro ⟨fields, heq, -, -⟩
      simp at heq
    · rintro ⟨hb, -⟩
      exact hb b rfl
  · refine ⟨iff_of_false (by simp [tryFrom]) ?_, iff_of_false (by simp [tryFrom]) ?_,
      iff_of_true (by simp [tryFrom]) ⟨by simp, ?_⟩⟩
    · rintro ⟨fields, heq, -, -⟩
      simp at heq
    · rintro ⟨fields, heq, -, -⟩
      simp at heq
    · rintro ⟨fields, ty, heq, -, -⟩
      simp at heq
  · refine ⟨iff_of_false (by simp [tryFrom]) ?_, iff_of_false (by simp [tryFrom]) ?_,
      iff_of_true (by simp [tryFrom]) ⟨by simp, ?_⟩⟩
    · rintro ⟨fields, heq, -, -⟩
      simp at heq
    · rintro ⟨fields, heq, -, -⟩
      simp at heq
    · rintro ⟨fields, ty, heq, -, -⟩
      simp at heq
  · refine ⟨iff_of_false (by simp [tryFrom]) ?_, iff_of_false (by simp [tryFrom]) ?_,
      iff_of_true (by simp [tryFrom]) ⟨by simp, ?_⟩⟩
    · rintro ⟨fields, heq, -, -⟩
      simp at heq
    · rintro ⟨fields, heq, -, -⟩
      simp at heq
    · rintro ⟨fields, ty, heq, -, -⟩
      simp at heq
  · cases hty : jlookup fields "type" with
    | none =>
      have htf : tryFrom (.obj fields) = .error .InvalidSchema := by
        simp [tryFrom, hty]
      refine ⟨iff_of_false (by simp [htf]) ?_, iff_of_false (by simp [htf]) ?_,
        iff_of_true htf ⟨by simp, ?_⟩⟩
      · rintro ⟨fields2, heq, hA, -⟩
        injection heq with heq
        subst heq
        rw [hty] at hA
        simp at hA
      · rintro ⟨fields2, heq, hA, -⟩
        injection heq with heq
        subst heq
        rw [hty] at hA
        simp at hA
      · rintro ⟨fields2, ty, heq, hA, -⟩
        injection heq with heq
        subst heq
        rw [hty] at hA
        simp at hA
    | some w =>
      cases w with
      | str tyname =>
        by_cases h1 : tyname = "number"
        · subst h1
          have htf : tryFrom (.obj fields) = .ok (.Ground .Num) := by
            simp [tryFrom, hty]
          refine ⟨iff_of_false (by simp [htf]) ?_, iff_of_false (by simp [htf]) ?_,
            iff_of_false (by simp [htf]) ?_⟩
          · rintro ⟨fields2, heq, hA, -⟩
            injection heq with heq
            subst heq
            rw [hty] at hA
            simp at hA
          · rintro ⟨fields2, heq, hA, -⟩
            injection heq with heq
            subst heq
            rw [hty] at hA
            simp at hA
          · rintro ⟨-, hB⟩
            exact hB ⟨fields, "number", rfl, hty, by decide⟩
        by_cases h2 : tyname = "string"
        · subst h2
          have htf : tryFrom (.obj fields) = .ok (.Ground .String) := by
            simp [tryFrom, hty]
          refine ⟨iff_of_false (by simp [htf]) ?_, iff_of_false (by simp [htf]) ?_,
            iff_of_false (by simp [htf]) ?_⟩
          · rintro ⟨fields2, heq, hA, -⟩
            injection heq with heq
            subst heq
            rw [hty] at hA
            simp at hA
          · rintro ⟨fields2, heq, hA, -⟩
            injection heq with heq
            subst heq
            rw [hty] at hA
            simp at hA
          · rintro ⟨-, hB⟩
            exact hB ⟨fields, "string", rfl, hty, by decide⟩
        by_cases h3 : tyname = "boolean"
        · subst h3
          have htf : tryFrom (.obj fields) = .ok (.Ground .Bool) := by
            simp [tryFrom, hty]
          refine ⟨iff_of_false (by simp [htf]) ?_, iff_of_false (by simp [htf]) ?_,
            iff_of_false (by simp [htf]) ?_⟩
          · rintro ⟨fields2, heq, hA, -⟩
            injection heq with heq
            subst heq
            rw [hty] at hA
            simp at hA
          · rintro ⟨fields2, heq, hA, -⟩
            injection heq with heq
            subst heq
            rw [hty] at hA
            simp at hA
          · rintro ⟨-, hB⟩
            exact hB ⟨fields, "boolean", rfl, hty, by decide⟩
        by_cases h4 : tyname = "null"
        · subst h4
          have htf : tryFrom (.obj fields) = .ok (.Ground .Null) := by
            simp [tryFrom, hty]
          refine ⟨iff_of_false (by simp [htf]) ?_, iff_of_false (by simp [htf]) ?_,
            iff_of_false (by simp [htf]) ?_⟩
          · rintro ⟨fields2, heq, hA, -⟩
            injection heq with heq
            subst heq
            rw [hty] at hA
            simp at hA
          · rintro ⟨fields2, heq, hA, -⟩
            injection heq with heq
            subst heq
            rw [hty] at hA
            simp at hA
          · rintro ⟨-, hB⟩
            exact hB ⟨fields, "null", rfl, hty, by decide⟩
        by_cases h5 : tyname = "array"
        · subst h5
          cases hit : jlookup fields "items" with
          | none =>
            have htf := tryFrom_arr_noItems hty hit
            refine ⟨iff_of_true htf ⟨fields, rfl, hty, hit⟩,
              iff_of_false (by simp [htf]) ?_, iff_of_false (by simp [htf]) ?_⟩
            · rintro ⟨fields2, heq, hA, -⟩
              injection heq with heq
              subst heq
              rw [hty] at hA
              simp at hA
            · rintro ⟨-, hB⟩
              exact hB ⟨fields, "array", rfl, hty, by decide⟩
          | some it =>
            obtain ⟨s0, hs0⟩ := hitems fields it rfl hty hit
            have htf : tryFrom (.obj fields) = .ok (.Arr s0) := by
              rw [tryFrom_arr_items hty hit, hs0]
            refine ⟨iff_of_false (by simp [htf]) ?_, iff_of_false (by simp [htf]) ?_,
              iff_of_false (by simp [htf]) ?_⟩
            · rintro ⟨fields2, heq, -, hB⟩
              injection heq with heq
              subst heq
              rw [hit] at hB
              simp at hB
            · rintro ⟨fields2, heq, hA, -⟩
              injection heq with heq
              subst heq
              rw [hty] at hA
              simp at hA
            · rintro ⟨-, hB⟩
              exact hB ⟨fields, "array", rfl, hty, by decide⟩
        by_cases h6 : tyname = "object"
        · subst h6
          cases hpr : jlookup fields "properties" with
          | none =>
            have htf := tryFrom_object_noProps hty (by simp [hpr])
            refine ⟨iff_of_false (by simp [htf]) ?_,
              iff_of_true htf ⟨fields, rfl, hty, by simp [hpr]⟩,
              iff_of_false (by simp [htf]) ?_⟩
            · rintro ⟨fields2, heq, hA, -⟩
              injection heq with heq
              subst heq
              rw [hty] at hA
              simp at hA
            · rintro ⟨-, hB⟩
              exact hB ⟨fields, "object", rfl, hty, by decide⟩
          | some w2 =>
            cases w2 with
            | obj props =>
              have hp := hprops fields props rfl hty hpr
              obtain ⟨m, hm⟩ := parsePropsAux_ok props hp []
              have htf : tryFrom (.obj fields) = .ok (.Obj m) := by
                rw [tryFrom_object_props hty hpr, hm]
              refine ⟨iff_of_false (by simp [htf]) ?_, iff_of_false (by simp [htf]) ?_,
                iff_of_false (by simp [htf]) ?_⟩
              · rintro ⟨fields2, heq, hA, -⟩
                injection heq with heq
                subst heq
                rw [hty] at hA
                simp at hA
              · rintro ⟨fields2, heq, -, hB⟩
                injection heq with heq
                subst heq
                exact hB props hpr
              · rintro ⟨-, hB⟩
                exact hB ⟨fields, "object", rfl, hty, by decide⟩
            | null =>
              have htf := tryFrom_object_noProps hty (by simp [hpr])
              refine ⟨iff_of_false (by simp [htf]) ?_,
                iff_of_true htf ⟨fields, rfl, hty, by simp [hpr]⟩,
                iff_of_false (by simp [htf]) ?_⟩
              · rintro ⟨fields2, heq, hA, -⟩
                injection heq with heq
                subst heq
                rw [hty] at hA
                simp at hA
              · rintro ⟨-, hB⟩
                exact hB ⟨fields, "object", rfl, hty, by decide⟩
            | bool b2 =>
              have htf := tryFrom_object_noProps hty (by simp [hpr])
              refine ⟨iff_of_false (by simp [htf]) ?_,
                iff_of_true htf ⟨fields, rfl, hty, by simp [hpr]⟩,
                iff_of_false (by simp [htf]) ?_⟩
              · rintro ⟨fields2, heq, hA, -⟩
                injection heq with heq
                subst heq
                rw [hty] at hA
                simp at hA
              · rintro ⟨-, hB⟩
                exact hB ⟨fields, "object", rfl, hty, by decide⟩
            | num n2 =>
              have htf := tryFrom_object_noProps hty (by simp [hpr])
              refine ⟨iff_of_false (by simp [htf]) ?_,
                iff_of_true htf ⟨fields, rfl, hty, by simp [hpr]⟩,
                iff_of_false (by simp [htf]) ?_⟩
              · rintro ⟨fields2, heq, hA, -⟩
                injection heq with heq
                subst heq
                rw [hty] at hA
                simp at hA
              · rintro ⟨-, hB⟩
                exact hB ⟨fields, "object", rfl, hty, by decide⟩
            | str s2 =>
              have htf := tryFrom_object_noProps hty (by simp [hpr])
              refine ⟨iff_of_false (by simp [htf]) ?_,
                iff_of_true htf ⟨fields, rfl, hty, by simp [hpr]⟩,
                iff_of_false (by simp [htf]) ?_⟩
              · rintro ⟨fields2, heq, hA, -⟩
                injection heq with heq
                subst heq
                rw [hty] at hA
                simp at hA
              · rintro ⟨-, hB⟩
                exact hB ⟨fields, "object", rfl, hty, by decide⟩
            | arr a2 =>
              have htf := tryFrom_object_noProps hty (by simp [hpr])
              refine ⟨iff_of_false (by simp [htf]) ?_,
                iff_of_true htf ⟨fields, rfl, hty, by simp [hpr]⟩,
                iff_of_false (by simp [htf]) ?_⟩
              · rintro ⟨fields2, heq, hA, -⟩
                injection heq with heq
                subst heq
                rw [hty] at hA
                simp at hA
              · rintro ⟨-, hB⟩
                exact hB ⟨fields, "object", rfl, hty, by decide⟩
        · -- unrecognized type name
          have htf : tryFrom (.obj fields) = .error .InvalidSchema := by
            simp [tryFrom, hty, h1, h2, h3, h4, h5, h6]
          refine ⟨iff_of_false (by simp [htf]) ?_, iff_of_false (by simp [htf]) ?_,
            iff_of_true htf ⟨by simp, ?_⟩⟩
          · rintro ⟨fields2, heq, hA, -⟩
            injection heq with heq
            subst heq
            rw [hty] at hA
            injection hA with hA
            injection hA with hA
            exact h5 hA
          · rintro ⟨fields2, heq, hA, -⟩
            injection heq with heq
            subst heq
            rw [hty] at hA
            injection hA with hA
            injection hA with hA
            exact h6 hA
          · rintro ⟨fields2, ty, heq, hA, hmem⟩
            injection heq with heq
            subst heq
            rw [hty] at hA
            injection hA with hA
            injection hA with hA
            subst hA
            revert hmem
            simp [h1, h2, h3, h4, h5, h6]
      | null =>
        have htf : tryFrom (.obj fields) = .error .InvalidSchema := by
          simp [tryFrom, hty]
        refine ⟨iff_of_false (by simp [htf]) ?_, iff_of_false (by simp [htf]) ?_,
          iff_of_true htf ⟨by simp, ?_⟩⟩
        · rintro ⟨fields2, heq, hA, -⟩
          injection heq with heq
          subst heq
          rw [hty] at hA
          simp at hA
        · rintro ⟨fields2, heq, hA, -⟩
          injection heq with heq
          subst heq
          rw [hty] at hA
          simp at hA
        · rintro ⟨fields2, ty, heq, hA, -⟩
          injection heq with heq
          subst heq
          rw [hty] at hA
          simp at hA
      | bool b2 =>
        have htf : tryFrom (.obj fields) = .error .InvalidSchema := by
          simp [tryFrom, hty]
        refine ⟨iff_of_false (by simp [htf]) ?_, iff_of_false (by simp [htf]) ?_,
          iff_of_true htf ⟨by simp, ?_⟩⟩
        · rintro ⟨fields2, heq, hA, -⟩
          injection heq with heq
          subst heq
          rw [hty] at hA
          simp at hA
        · rintro ⟨fields2, heq, hA, -⟩
          injection heq with heq
          subst heq
          rw [hty] at hA
          simp at hA
        · rintro ⟨fields2, ty, heq, hA, -⟩
          injection heq with heq
          subst heq
          rw [hty] at hA
          simp at hA
      | num n2 =>
        have htf : tryFrom (.obj fields) = .error .InvalidSchema := by
          simp [tryFrom, hty]
        refine ⟨iff_of_false (by simp [htf]) ?_, iff_of_false (by simp [htf]) ?_,
          iff_of_true htf ⟨by simp, ?_⟩⟩
        · rintro ⟨fields2, heq, hA, -⟩
          injection heq with heq
          subst heq
          rw [hty] at hA
          simp at hA
        · rintro ⟨fields2, heq, hA, -⟩
          injection heq with heq
          subst heq
          rw [hty] at hA
          simp at hA
        · rintro ⟨fields2, ty, heq, hA, -⟩
          injection heq with heq
          subst heq
          rw [hty] at hA
          simp at hA
      | arr a2 =>
        have htf : tryFrom (.obj fields) = .error .InvalidSchema := by
          simp [tryFrom, hty]
        refine ⟨iff_of_false (by simp [htf]) ?_, iff_of_false (by simp [htf]) ?_,
          iff_of_true htf ⟨by simp, ?_⟩⟩
        · rintro ⟨fields2, heq, hA, -⟩
          injection heq with heq
          subst heq
          rw [hty] at hA
          simp at hA
        · rintro ⟨fields2, heq, hA, -⟩
          injection heq with heq
          subst heq
          rw [hty] at hA
          simp at hA
        · rintro ⟨fields2, ty, heq, hA, -⟩
          injection heq with heq
          subst heq
          rw [hty] at hA
          simp at hA
      | obj o2 =>
        have htf : tryFrom (.obj fields) = .error .InvalidSchema := by
          simp [tryFrom, hty]
        refine ⟨iff_of_false (by simp [htf]) ?_, iff_of_false (by simp [htf]) ?_,
          iff_of_true htf ⟨by simp, ?_⟩⟩
        · rintro ⟨fields2, heq, hA, -⟩
          injection heq with heq
          subst heq
          rw [hty] at hA
          simp at hA
        · rintro ⟨fields2, heq, hA, -⟩
          injection heq with heq
          subst heq
          rw [hty] at hA
          simp at hA
        · rintro ⟨fields2, ty, heq, hA, -⟩
          injection heq with heq
          subst heq
          rw [hty] at hA
          simp at hA

theorem c8_witness :
    (∀ fields it, JValue.bool true = .obj fields →
      jlookup fields "type" = some (.str "array") →
      jlookup fields "items" = some it → ∃ s, tryFrom it = .ok s) ∧
    (∀ fields props, JValue.bool true = .obj fields →
      jlookup fields "type" = some (.str "object") →
      jlookup fields "properties" = some (.obj props) →
      ∀ q ∈ props, ∃ s, tryFrom q.2 = .ok s) ∧
    ¬(tryFrom (JValue.bool true) = .error .InvalidSchema) := by
  refine ⟨?_, ?_, ?_⟩
  · intro fields it h
    simp at h
  · intro fields props h
    simp at h
  · have h := (c8_parse_error_classification (JValue.bool true)
      (by intro fields it h; simp at h) (by intro fields props h; simp at h)).2.2
    rw [h]
    rintro ⟨hb, -⟩
    exact hb true rfl

/-! ## Claim C10: freshness of minted variable names -/

/-- Evaluate a digit-character list back to the number it denotes (decimal,
most significant first), continuing from `acc`. -/
def digitsVal : List Char → Nat → Nat
  | [], acc => acc
  | c :: rest, acc => digitsVal rest (acc * 10 + (c.toNat - Char.toNat '0'))

theorem digitChar_val (d : Nat) (h : d < 10) :
    (Nat.digitChar d).toNat - Char.toNat '0' = d := by
  interval_cases d <;> rfl

theorem toDigitsCore_val (fuel : Nat) :
    ∀ (n : Nat) (acc : List Char) (init : Nat), n < 10 ^ fuel →
      ∃ m, 0 < m ∧ n < m ∧
        digitsVal (Nat.toDigitsCore 10 fuel n acc) init = digitsVal acc (init * m + n) := by
  induction fuel with
  | zero =>
    intro n acc init hf
    simp at hf
    subst hf
    exact ⟨1, by omega, by omega, by simp [Nat.toDigitsCore]⟩
  | succ fuel ih =>
    intro n acc init hf
    by_cases h0 : n / 10 = 0
    · refine ⟨10, by omega, by omega, ?_⟩
      rw [show Nat.toDigitsCore 10 (fuel + 1) n acc = Nat.digitChar (n % 10) :: acc from by
        rw [Nat.toDigitsCore]
        simp [h0]]
      rw [digitsVal, digitChar_val (n % 10) (by omega)]
      have hm : n % 10 = n := by omega
      rw [hm]
    · have hlt : n / 10 < 10 ^ fuel := by
        have h1 : (10 : Nat) ^ (fuel + 1) = 10 ^ fuel * 10 := by rw [pow_succ]
        rw [Nat.div_lt_iff_lt_mul (by norm_num)]
        omega
      obtain ⟨m, hm0, hml, hmv⟩ := ih (n / 10) (Nat.digitChar (n % 10) :: acc) init hlt
      have hdm := Nat.div_add_mod n 10
      have hmod := Nat.mod_lt n (show 0 < 10 by norm_num)
      refine ⟨m * 10, by omega, by omega, ?_⟩
      rw [show Nat.toDigitsCore 10 (fuel + 1) n acc =
          Nat.toDigitsCore 10 fuel (n / 10) (Nat.digitChar (n % 10) :: acc) from by
        rw [Nat.toDigitsCore]
        simp [h0]]
      rw [hmv, digitsVal, digitChar_val (n % 10) (by omega)]
      congr 1
      rw [Nat.add_mul, Nat.mul_assoc, Nat.add_assoc, Nat.mul_comm (n / 10) 10,
        Nat.div_add_mod]

theorem digitsVal_toDigits (n : Nat) : digitsVal (Nat.toDigits 10 n) 0 = n := by
  have hp : n < 10 ^ (n + 1) := by
    have := Nat.lt_pow_self (show 1 < 10 by norm_num) (n + 1)
    omega
  obtain ⟨m, -, -, hv⟩ := toDigitsCore_val (n + 1) n [] 0 hp
  rw [Nat.toDigits, hv]
  simp [digitsVal]

theorem natToString_data_inj (a b : Nat)
    (h : (toString a).data = (toString b).data) : a = b := by
  have ha : (toString a).data = Nat.toDigits 10 a := rfl
  have hb : (toString b).data = Nat.toDigits 10 b := rfl
  rw [ha, hb] at h
  have h2 := digitsVal_toDigits a
  rw [h, digitsVal_toDigits] at h2
  omega

/-- Distinctness of minted names: names built from the three minting
prefixes and a decimal counter differ whenever the prefix or the counter
differs. -/
theorem name_ne (p1 p2 : String) (k1 k2 : Nat)
    (hp1 : p1 = "arr" ∨ p1 = "idx" ∨ p1 = "obj")
    (hp2 : p2 = "arr" ∨ p2 = "idx" ∨ p2 = "obj")
    (hne : p1 ≠ p2 ∨ k1 ≠ k2) :
    p1 ++ toString k1 ≠ p2 ++ toString k2 := by
  intro h
  have hd := congrArg String.data h
  rw [String.data_append, String.data_append] at hd
  rcases hp1 with rfl | rfl | rfl <;> rcases hp2 with rfl | rfl | rfl <;>
    first
    | exact absurd (Option.some.inj (congrArg List.head? hd)) (by decide)
    | (rcases hne with hp | hk
       · exact hp rfl
       · exact hk (natToString_data_inj _ _ (List.append_cancel_left hd)))

/-- `genStep` never decreases the `uniq` counter. -/
theorem genStep_uniq_le (cg : JSCodegen) (op : IR) (cg1 : JSCodegen) (fs : List String)
    (h : genStep cg op = some (cg1, fs)) : cg.uniq ≤ cg1.uniq := by
  cases op with
  | G2G g1 g2 =>
    rw [genStep] at h
    cases hgg : generateGroundToGround cg g1 g2 with
    | none =>
      rw [hgg] at h
      simp at h
    | some x =>
      rw [hgg] at h
      cases x with
      | none =>
        simp at h
        rw [← h.1]
      | some fr =>
        simp at h
        rw [← h.1]
  | Copy =>
    rw [genStep] at h
    cases ho : outputPath cg with
    | none =>
      rw [ho] at h
      simp at h
    | some o =>
      rw [ho] at h
      simp at h
      rw [← h.1]
  | Abs k =>
    rw [genStep] at h
    cases ho : outputPath cg with
    | none =>
      rw [ho] at h
      simp at h
    | some o =>
      rw [ho] at h
      simp at h
      rw [← h.1]
  | PushArr =>
    rw [genStep] at h
    simp at h
    rw [← h.1]
    simp
  | PushObj =>
    rw [genStep] at h
    simp at h
    rw [← h.1]
    simp
  | PushKey k =>
    rw [genStep] at h
    simp at h
    rw [← h.1]
  | PopArr =>
    rw [genStep] at h
    rcases hv : cg.varstack with _ | ⟨lvl, rest⟩
    · rw [hv] at h
      simp at h
    · rw [hv] at h
      cases lvl with
      | Arr a i =>
        simp at h
        obtain ⟨o, ho, h1, h2⟩ := h
        rw [← h1]
      | Var v => simp at h
      | Key k => simp at h
  | PopObj =>
    rw [genStep] at h
    rcases hv : cg.varstack with _ | ⟨lvl, rest⟩
    · rw [hv] at h
      cases ho : outputPath cg with
      | none =>
        rw [ho] at h
        simp at h
      | some o =>
        rw [ho] at h
        simp at h
        rw [← h.1]
    · rw [hv] at h
      simp at h
      obtain ⟨o, ho, h1, h2⟩ := h
      rw [← h1]
  | PopKey =>
    rw [genStep] at h
    rcases hv : cg.varstack with _ | ⟨lvl, rest⟩
    · rw [hv] at h
      simp at h
      rw [← h.1]
    · rw [hv] at h
      cases lvl with
      | Key k =>
        simp at h
        rw [← h.1]
      | Var v => simp at h
      | Arr a i => simp at h
  | Inv =>
    rw [genStep] at h
    simp at h
  | Extr k =>
    rw [genStep] at h
    simp at h

/-- Names minted while one instruction is processed use counters in
`[cg.uniq, cg1.uniq)` and the three fixed prefixes. -/
theorem minted_lt (cg : JSCodegen) (op : IR) (cg1 : JSCodegen) (fs : List String)
    (hg : genStep cg op = some (cg1, fs)) :
    ∀ name ∈ minted cg op, ∃ pre k, (pre = "arr" ∨ pre = "idx" ∨ pre = "obj") ∧
      name = pre ++ toString k ∧ cg.uniq ≤ k ∧ k < cg1.uniq := by
  intro name hm
  cases op with
  | PushArr =>
    rw [genStep] at hg
    simp at hg
    simp [minted] at hm
    rcases hm with rfl | rfl
    · exact ⟨"arr", cg.uniq, by simp, rfl, le_refl _, by rw [← hg.1]; simp⟩
    · exact ⟨"idx", cg.uniq + 1, by simp, rfl, by omega, by rw [← hg.1]; simp⟩
  | PushObj =>
    rw [genStep] at hg
    simp at hg
    simp [minted] at hm
    subst hm
    exact ⟨"obj", cg.uniq, by simp, rfl, le_refl _, by rw [← hg.1]; simp⟩
  | G2G g1 g2 => simp [minted] at hm
  | Copy => simp [minted] at hm
  | PushKey k => simp [minted] at hm
  | PopKey => simp [minted] at hm
  | PopArr => simp [minted] at hm
  | PopObj => simp [minted] at hm
  | Abs k => simp [minted] at hm
  | Inv => simp [minted] at hm
  | Extr k => simp [minted] at hm

/-- Every name minted during a run has one of the three prefixes and a
counter at least the starting `uniq`. -/
theorem mintedRun_spec :
    ∀ (ops : List IR) (cg : JSCodegen) (name : String), name ∈ mintedRun cg ops →
      ∃ pre k, (pre = "arr" ∨ pre = "idx" ∨ pre = "obj") ∧
        name = pre ++ toString k ∧ cg.uniq ≤ k := by
  intro ops
  induction ops with
  | nil =>
    intro cg name h
    simp [mintedRun] at h
  | cons op rest ih =>
    intro cg name h
    rw [mintedRun] at h
    rcases List.mem_append.mp h with hm | hm
    · cases hg : genStep cg op with
      | none =>
        cases op <;> simp [minted] at hm
        · rcases hm with rfl | rfl
          · exact ⟨"arr", cg.uniq, by simp, rfl, le_refl _⟩
          · exact ⟨"idx", cg.uniq + 1, by simp, rfl, by omega⟩
        · subst hm
          exact ⟨"obj", cg.uniq, by simp, rfl, le_refl _⟩
      | some x =>
        obtain ⟨cg1, fs⟩ := x
        obtain ⟨pre, k, hpre, hname, hlow, -⟩ := minted_lt cg op cg1 fs hg name hm
        exact ⟨pre, k, hpre, hname, hlow⟩
    · cases hg : genStep cg op with
      | none =>
        rw [hg] at hm
        simp at hm
      | some x =>
        obtain ⟨cg1, fs⟩ := x
        rw [hg] at hm
        obtain ⟨pre, k, hpre, hname, hk⟩ := ih cg1 name hm
        exact ⟨pre, k, hpre, hname,
          le_trans (genStep_uniq_le cg op cg1 fs hg) hk⟩

/-- All names minted during a run of the instruction loop are pairwise
distinct. -/
theorem mintedRun_pairwise :
    ∀ (ops : List IR) (cg : JSCodegen), (mintedRun cg ops).Pairwise (· ≠ ·) := by
  intro ops
  induction ops with
  | nil =>
    intro cg
    simp [mintedRun]
  | cons op rest ih =>
    intro cg
    rw [mintedRun]
    cases hg : genStep cg op with
    | none =>
      simp only [List.append_nil]
      cases op <;> simp [minted]
      exact name_ne "arr" "idx" cg.uniq (cg.uniq + 1) (by simp) (by simp)
        (Or.inl (by decide))
    | some x =>
      obtain ⟨cg1, fs⟩ := x
      rw [List.pairwise_append]
      refine ⟨?_, ih cg1, ?_⟩
      · cases op <;> simp [minted]
        exact name_ne "arr" "idx" cg.uniq (cg.uniq + 1) (by simp) (by simp)
          (Or.inl (by decide))
      · intro a ha b hb
        obtain ⟨p1, k1, hp1, rfl, hk1low, hk1hi⟩ := minted_lt cg op cg1 fs hg a ha
        obtain ⟨p2, k2, hp2, rfl, hk2⟩ := mintedRun_spec rest cg1 b hb
        exact name_ne p1 p2 k1 k2 hp1 hp2 (Or.inr (by omega))

/-- **C10.** Within a single run of `JSCodegen::generate`, the `uniq`
counter strictly increases at every minting (`PushArr` consumes two fresh
counters, `PushObj` one, and no instruction decreases the counter), so all
auxiliary variable names introduced by `PushArr` (`arr<n>`, `idx<n>`) and
`PushObj` (`obj<n>`) during the run are pairwise distinct: no emitted `let`
declaration shadows or collides with an earlier one. -/
theorem c10_minted_names_distinct :
    (∀ (cg cg1 : JSCodegen) (fs : List String),
      genStep cg .PushArr = some (cg1, fs) → cg.uniq < cg1.uniq) ∧
      (∀ (cg cg1 : JSCodegen) (fs : List String),
        genStep cg .PushObj = some (cg1, fs) → cg.uniq < cg1.uniq) ∧
      (∀ (cg cg1 : JSCodegen) (op : IR) (fs : List String),
        genStep cg op = some (cg1, fs) → cg.uniq ≤ cg1.uniq) ∧
      (∀ (ops : List IR) (cg : JSCodegen), (mintedRun cg ops).Pairwise (· ≠ ·)) := by
  refine ⟨?_, ?_, ?_, mintedRun_pairwise⟩
  · intro cg cg1 fs h
    rw [genStep] at h
    simp at h
    rw [← h.1]
    simp
  · intro cg cg1 fs h
    rw [genStep] at h
    simp at h
    rw [← h.1]
    simp
  · intro cg cg1 op fs h
    exact genStep_uniq_le cg op cg1 fs h

theorem c10_witness :
    genStep (JSCodegen.new "input" "output") .PushArr =
        some ({ varstack := [Level.Arr "arr0" "idx1"], arg := "input", retvar := "output",
                uniq := 2 },
          ["let arr0 = [];",
           "for (let idx1 = 0; idx1 < input.length; idx1++) \x7b"]) ∧
      (JSCodegen.new "input" "output").uniq < 2 ∧
      (mintedRun (JSCodegen.new "input" "output")
        [IR.PushArr, IR.PushObj]).Pairwise (· ≠ ·) := by
  refine ⟨by decide, ?_, ?_⟩
  · exact c10_minted_names_distinct.1 (JSCodegen.new "input" "output")
      { varstack := [Level.Arr "arr0" "idx1"], arg := "input", retvar := "output", uniq := 2 }
      ["let arr0 = [];", "for (let idx1 = 0; idx1 < input.length; idx1++) \x7b"] (by decide)
  · exact c10_minted_names_distinct.2.2.2 [IR.PushArr, IR.PushObj]
      (JSCodegen.new "input" "output")

end JT
